import Mathlib

/-!
Verification of the arjunx parameter-extraction tool.

The repository contains two near-duplicate variants of the program:
`main.go` and a second unnamed source file (`part_000`).  Both fetch URLs,
scan the returned HTML for parameter names, and rewrite the input URL with
the extracted parameters.  This file gives a shallow embedding of both
variants and of the parts of their external collaborators that the
behaviour depends on:

* Go's `net/url` package (URL parsing, query parsing, query encoding,
  URL serialization) is modelled at the character level, following the
  control flow of `url.Parse`, `url.Values.Add`, `url.Values.Encode`,
  `url.ParseQuery`, `url.QueryEscape`/`QueryUnescape` and `URL.String`.
  Documented simplifications: percent-decoding is done per character
  rather than per UTF-8 byte, the scheme is not lower-cased, IPv6
  bracket hosts and userinfo validation are not special-cased, and
  serialized host/path/fragment text is emitted verbatim (Go re-escapes
  some characters on output).  None of the claims under verification
  depend on these corners.
* The HTML parser (goquery / x/net/html) is an external collaborator; a
  parsed document is modelled as a list of elements in document order,
  each with its optional `name`, `value`, `href`, `src`, `action`
  attributes, and the parser itself as an oracle
  `String → Option (List Element)` (`none` = parse failure).
* The HTTP client is an oracle `String → List (String × String) → Option String`
  from final URL and parsed headers to a response body (`none` = network
  failure).

All definitions are executable, so every concrete claim instance can be
settled by evaluation.
-/

namespace Arjunx

/-! ## Character predicates -/

/-- ASCII control bytes, as in Go's `stringContainsCTLByte`. -/
def isCtl (c : Char) : Bool := c.toNat < 32 || c.toNat == 127

/-- Whitespace recognised by `strings.TrimSpace` (the ASCII and Latin-1
part of `unicode.IsSpace`; higher Unicode space code points are omitted,
no claim depends on them). -/
def isGoSpace (c : Char) : Bool :=
  c.toNat == 32 || c.toNat == 9 || c.toNat == 10 || c.toNat == 11 ||
  c.toNat == 12 || c.toNat == 13 || c.toNat == 0x85 || c.toNat == 0xA0

def isDigitCh (c : Char) : Bool := 48 ≤ c.toNat && c.toNat ≤ 57

def isAlphaCh (c : Char) : Bool :=
  (65 ≤ c.toNat && c.toNat ≤ 90) || (97 ≤ c.toNat && c.toNat ≤ 122)

def isHexDigitCh (c : Char) : Bool :=
  isDigitCh c || (65 ≤ c.toNat && c.toNat ≤ 70) || (97 ≤ c.toNat && c.toNat ≤ 102)

/-- Characters allowed in a URL scheme after the first: `[a-zA-Z0-9+-.]`. -/
def isSchemeCh (c : Char) : Bool :=
  isAlphaCh c || isDigitCh c || c = '+' || c = '-' || c = '.'

/-! ## List utilities -/

/-- Split at the first occurrence of `ch`: returns the part before it and,
if found, the part after it (the separator is dropped).  This is
`strings.Cut`. -/
def splitAtChar (ch : Char) : List Char → List Char × Option (List Char)
  | [] => ([], none)
  | c :: cs =>
    if c = ch then ([], some cs)
    else
      let r := splitAtChar ch cs
      (c :: r.1, r.2)

/-- Split at the last occurrence of `ch` (before, after). -/
def splitAtLastChar (ch : Char) (l : List Char) : List Char × Option (List Char) :=
  match splitAtChar ch l.reverse with
  | (_, none) => (l, none)
  | (a, some b) => (b.reverse, some a.reverse)

/-- Split on every occurrence of `ch` (accumulator-based). -/
def splitAllAux (ch : Char) : List Char → List Char → List (List Char)
  | [], acc => [acc.reverse]
  | c :: cs, acc =>
    if c = ch then acc.reverse :: splitAllAux ch cs []
    else splitAllAux ch cs (c :: acc)

/-- `l₁` is a leading part of `l₂`. -/
def startsWithL : List Char → List Char → Bool
  | [], _ => true
  | _ :: _, [] => false
  | p :: ps, c :: cs => p = c && startsWithL ps cs

/-- `strings.TrimSpace` on a character list. -/
def trimSpaceL (l : List Char) : List Char :=
  ((l.dropWhile isGoSpace).reverse.dropWhile isGoSpace).reverse

/-- `strings.TrimSpace`. -/
def trimSpace (s : String) : String := ⟨trimSpaceL s.data⟩

/-! ## Percent-encoding -/

/-- Hex digit value (callers guarantee `isHexDigitCh`). -/
def hexVal (c : Char) : Nat :=
  if isDigitCh c then c.toNat - 48
  else if 65 ≤ c.toNat && c.toNat ≤ 70 then c.toNat - 55
  else c.toNat - 87

/-- Upper-case hex digit for `n < 16`. -/
def hexUpper (n : Nat) : Char := if n < 10 then Char.ofNat (48 + n) else Char.ofNat (55 + n)

/-- Every `%` is followed by two hex digits (Go's `unescape` validity
condition, which is the only way `setPath`/`setFragment`/host parsing can
fail). -/
def percentValid : List Char → Bool
  | [] => true
  | '%' :: a :: b :: rest => isHexDigitCh a && isHexDigitCh b && percentValid rest
  | '%' :: _ => false
  | _ :: rest => percentValid rest

/-- UTF-8 encoding of a character, as the byte values Go iterates over. -/
def utf8Bytes (c : Char) : List Nat :=
  let n := c.toNat
  if n < 0x80 then [n]
  else if n < 0x800 then [0xC0 + n / 64, 0x80 + n % 64]
  else if n < 0x10000 then [0xE0 + n / 4096, 0x80 + (n / 64) % 64, 0x80 + n % 64]
  else [0xF0 + n / 262144, 0x80 + (n / 4096) % 64, 0x80 + (n / 64) % 64, 0x80 + n % 64]

/-- `%XX` with upper-case hex, as Go's `escape` emits. -/
def escByte (n : Nat) : List Char := ['%', hexUpper (n / 16), hexUpper (n % 16)]

/-- Characters `QueryEscape` leaves alone: alphanumerics and `-_.~`. -/
def isUnreservedQ (c : Char) : Bool :=
  isAlphaCh c || isDigitCh c || c = '-' || c = '_' || c = '.' || c = '~'

/-- Go's `url.QueryEscape` (space becomes `+`, everything else outside the
unreserved set is percent-encoded byte-wise). -/
def queryEscapeL (l : List Char) : List Char :=
  l.flatMap fun c =>
    if isUnreservedQ c then [c]
    else if c = ' ' then ['+']
    else (utf8Bytes c).flatMap escByte

/-- Go's `url.QueryUnescape` (`+` becomes space, `%XX` decodes, a bad
escape is an error).  Decoded bytes are kept as single characters; the
multi-byte UTF-8 recombination is not modelled (no claim uses non-ASCII
data). -/
def queryUnescapeL : List Char → Option (List Char)
  | [] => some []
  | '%' :: a :: b :: rest =>
    if isHexDigitCh a && isHexDigitCh b then
      (queryUnescapeL rest).map (Char.ofNat (16 * hexVal a + hexVal b) :: ·)
    else none
  | '%' :: _ => none
  | '+' :: rest => (queryUnescapeL rest).map (' ' :: ·)
  | c :: rest => (queryUnescapeL rest).map (c :: ·)

/-! ## `url.Values`

Go's `url.Values` is `map[string][]string`.  The map itself is unordered;
what is observable is the per-key value sequence, the key set, and the
(sorted) `Encode` output.  We model it as an association list without
duplicate keys: `Values.add` mirrors `m[key] = append(m[key], value)`. -/

abbrev Values := List (String × List String)

/-- Lookup: the value list of a key (empty when absent), i.e. `m[key]`. -/
def Values.get (m : Values) (k : String) : List String :=
  match m with
  | [] => []
  | (k', vs) :: rest => if k' = k then vs else Values.get rest k

/-- `url.Values.Add` / `m[key] = append(m[key], value)`. -/
def Values.add (m : Values) (k v : String) : Values :=
  match m with
  | [] => [(k, [v])]
  | (k', vs) :: rest => if k' = k then (k', vs ++ [v]) :: rest else (k', vs) :: Values.add rest k v

/-- Add every value of a list under one key, in order. -/
def Values.addList (m : Values) (k : String) (vs : List String) : Values :=
  vs.foldl (fun m v => Values.add m k v) m

/-- Merge a second multimap into the first, appending value lists
(per-key this is what both `params.Add` loops and part_000's
`mergeQueryParameters` compute). -/
def Values.addPairs (m : Values) (ps : List (String × List String)) : Values :=
  ps.foldl (fun m p => Values.addList m p.1 p.2) m

/-- Byte-wise lexicographic string order (`sort.Strings`; UTF-8 byte order
coincides with code-point order). -/
def charsLe : List Char → List Char → Bool
  | [], _ => true
  | _ :: _, [] => false
  | a :: as, b :: bs =>
    if a.toNat < b.toNat then true
    else if b.toNat < a.toNat then false
    else charsLe as bs

def insertSorted (p : String × List String) : Values → Values
  | [] => [p]
  | q :: rest => if charsLe p.1.data q.1.data then p :: q :: rest else q :: insertSorted p rest

/-- Keys in sorted order, as `Encode` iterates them.  Also the canonical
form used to compare two maps (Go maps are unordered). -/
def sortByKey (m : Values) : Values := m.foldr insertSorted []

/-- Go's `url.Values.Encode`: keys sorted, every value percent-encoded as
`key=value`, pairs joined with `&`. -/
def Values.encode (m : Values) : String :=
  ⟨List.intercalate ['&']
    ((sortByKey m).flatMap fun p =>
      p.2.map fun v => queryEscapeL p.1.data ++ '=' :: queryEscapeL v.data)⟩

/-- Go's `url.ParseQuery`, with errors discarded as `URL.Query` does:
split on `&`, drop segments containing `;`, drop empty segments, cut each
segment at the first `=`, percent-decode key and value (dropping the pair
on a bad escape), and append. -/
def parseQuery (q : String) : Values :=
  (splitAllAux '&' q.data []).foldl
    (fun m seg =>
      if seg.contains ';' then m
      else if seg.isEmpty then m
      else
        let cut := splitAtChar '=' seg
        match queryUnescapeL cut.1, queryUnescapeL (cut.2.getD []) with
        | some k, some v => Values.add m ⟨k⟩ ⟨v⟩
        | _, _ => m)
    []

/-! ## `net/url` URL parsing and serialization

`GoURL` mirrors the fields of Go's `url.URL` that the program observes.
`opq` is Go's `Opaque`; `host` stores the raw authority text (userinfo
included — Go splits it into `User`/`Host` but the program only ever
reassembles it). -/

structure GoURL where
  scheme : List Char
  opq : List Char
  host : List Char
  path : List Char
  rawQuery : List Char
  fragment : List Char
  forceQuery : Bool
  omitHost : Bool
deriving DecidableEq

/-- Go's `getScheme` scan: `acc` holds the scheme candidate reversed.
`none` is the `missing protocol scheme` error; `some ([], orig)` means no
scheme. -/
def getSchemeAux (orig : List Char) : List Char → List Char → Option (List Char × List Char)
  | [], _ => some ([], orig)
  | c :: cs, acc =>
    if c = ':' then
      if acc.isEmpty then none else some (acc.reverse, cs)
    else if (acc.isEmpty && isAlphaCh c) || (!acc.isEmpty && isSchemeCh c) then
      getSchemeAux orig cs (c :: acc)
    else some ([], orig)

def getScheme (l : List Char) : Option (List Char × List Char) := getSchemeAux l l []

/-- Go's `validOptionalPort` check on the part after the last `@` of the
authority: whatever follows the last `:` must be all digits.  (IPv6
bracket hosts are not special-cased; no claim uses them.) -/
def portOK (authority : List Char) : Bool :=
  let hostport := ((splitAtLastChar '@' authority).2).getD authority
  match splitAtLastChar ':' hostport with
  | (_, none) => true
  | (_, some port) => port.all isDigitCh

/-- The `ForceQuery`/query split of `url.Parse`: a single trailing `?`
with no other `?` sets `ForceQuery`, otherwise cut at the first `?`.
Returns `(rest, rawQuery, forceQuery)`. -/
def queryCut (rest0 : List Char) : List Char × List Char × Bool :=
  if rest0.getLast? = some '?' && !(rest0.dropLast.contains '?') then
    (rest0.dropLast, [], true)
  else
    match splitAtChar '?' rest0 with
    | (a, none) => (a, [], false)
    | (a, some q) => (a, q, false)

/-- The tail of `url.Parse` after the scheme and the query have been
split off: the opaque / authority / path cases, with the percent-escape,
port and first-segment-colon validations that can make parsing fail. -/
def parseAfterScheme (scheme rest1 rawQuery : List Char) (fq : Bool) (frag : List Char) :
    Option GoURL :=
  if rest1.head? ≠ some '/' then
    if !scheme.isEmpty then
      some ⟨scheme, rest1, [], [], rawQuery, frag, fq, false⟩
    else if ((splitAtChar '/' rest1).1).contains ':' then none
    else if percentValid rest1 then
      some ⟨[], [], [], rest1, rawQuery, frag, fq, false⟩
    else none
  else
    if (!scheme.isEmpty || !startsWithL ['/', '/', '/'] rest1) && startsWithL ['/', '/'] rest1 then
      let after := rest1.drop 2
      let acut := splitAtChar '/' after
      let authority := acut.1
      let rest2 : List Char := match acut.2 with
        | none => []
        | some r => '/' :: r
      if !percentValid authority then none
      else if !portOK authority then none
      else if !percentValid rest2 then none
      else some ⟨scheme, [], authority, rest2, rawQuery, frag, fq, false⟩
    else
      if percentValid rest1 then
        some ⟨scheme, [], [], rest1, rawQuery, frag, fq, !scheme.isEmpty⟩
      else none

/-- Go's `url.Parse` (`viaRequest = false`), following its control flow:
fragment split first, control-byte check on the pre-fragment part, `*`
special case, scheme scan, query split, then `parseAfterScheme`. -/
def parseGoURL (s : String) : Option GoURL :=
  let fragCut := splitAtChar '#' s.data
  let preFrag := fragCut.1
  let frag := (fragCut.2).getD []
  if preFrag.any isCtl then none
  else if !percentValid frag then none
  else if preFrag = ['*'] then
    some ⟨[], [], [], ['*'], [], frag, false, false⟩
  else
    match getScheme preFrag with
    | none => none
    | some (scheme, rest0) =>
      let qc := queryCut rest0
      parseAfterScheme scheme qc.1 qc.2.1 qc.2.2 frag

/-- `scheme:` of `URL.String` (empty when there is no scheme). -/
def schemePartOf (u : GoURL) : List Char :=
  if !u.scheme.isEmpty then u.scheme ++ [':'] else []

/-- `//host` of `URL.String`, under its three conditions (with
`User = nil`). -/
def authPartOf (u : GoURL) : List Char :=
  if (!u.scheme.isEmpty || !u.host.isEmpty) && !(u.omitHost && u.host.isEmpty)
      && (!u.host.isEmpty || !u.path.isEmpty) then
    '/' :: '/' :: u.host
  else []

/-- The path as emitted: a `/` is inserted between a host and a relative
path. -/
def pathPartOf (u : GoURL) : List Char :=
  if !u.path.isEmpty && u.path.head? ≠ some '/' && !u.host.isEmpty then '/' :: u.path
  else u.path

/-- The `./` guard for a schemeless, hostless path whose first segment
contains a colon. -/
def dotSlashOf (u : GoURL) : List Char :=
  if (schemePartOf u).isEmpty && (authPartOf u).isEmpty &&
      ((splitAtChar '/' (pathPartOf u)).1).contains ':' then
    ['.', '/']
  else []

/-- Everything between the scheme and the query: the opaque text, or
authority plus path. -/
def mainPartOf (u : GoURL) : List Char :=
  if !u.opq.isEmpty then u.opq
  else authPartOf u ++ dotSlashOf u ++ pathPartOf u

/-- `?rawQuery` (also emitted, empty, under `ForceQuery`). -/
def queryPartOf (u : GoURL) : List Char :=
  if u.forceQuery || !u.rawQuery.isEmpty then '?' :: u.rawQuery else []

/-- `#fragment`, omitted when the fragment is empty. -/
def fragPartOf (u : GoURL) : List Char :=
  if !u.fragment.isEmpty then '#' :: u.fragment else []

/-- Go's `URL.String`, with host/path/fragment text emitted verbatim
(they are stored raw — see the module comment). -/
def urlToString (u : GoURL) : String :=
  ⟨schemePartOf u ++ mainPartOf u ++ queryPartOf u ++ fragPartOf u⟩

/-! ## Parsed HTML documents

A parsed document is its elements in document order; each element carries
the optional attributes the program reads (`goquery`'s `Attr`/`AttrOr`:
`none` = attribute absent, `some ""` = present but empty). -/

structure Element where
  tag : String
  name : Option String := none
  value : Option String := none
  href : Option String := none
  src : Option String := none
  action : Option String := none
deriving DecidableEq

namespace MainGo

/-! ### The `main.go` variant -/

/-- The `doc.Find("a, form, input, select, textarea")` selector. -/
def selectedTags : List String := ["a", "form", "input", "select", "textarea"]

/-- `main.go`'s `parseURLAndAddQueryParameters`: parse the raw URL,
silently skip it on error, otherwise `params.Add` every query key/value
pair. -/
def parseURLAndAddQueryParameters (rawurl : String) (params : Values) : Values :=
  match parseGoURL rawurl with
  | none => params
  | some parsedURL => Values.addPairs params (parseQuery ⟨parsedURL.rawQuery⟩)

/-- First block of the `Each` callback in `main.go`'s
`extractQueryParamsFromHTML`: if `name` exists, add
`(name, AttrOr "value" "FUZZ")`. -/
def addNameValue (params : Values) (e : Element) : Values :=
  match e.name with
  | some n => Values.add params n (e.value.getD "FUZZ")
  | none => params

/-- Second block: merge the query parameters of `href` if present. -/
def addHrefParams (params : Values) (e : Element) : Values :=
  match e.href with
  | some h => parseURLAndAddQueryParameters h params
  | none => params

/-- Third block: merge the query parameters of `action` if present. -/
def addActionParams (params : Values) (e : Element) : Values :=
  match e.action with
  | some a => parseURLAndAddQueryParameters a params
  | none => params

/-- The whole `Each` callback body, in source order. -/
def processElement (params : Values) (e : Element) : Values :=
  addActionParams (addHrefParams (addNameValue params e) e) e

/-- `main.go`'s `extractQueryParamsFromHTML`, over the parse outcome of
the response body (`none` = the goquery parse error branch, which returns
the empty map). -/
def extractQueryParamsFromHTML (docOutcome : Option (List Element)) : Values :=
  match docOutcome with
  | none => []
  | some els => (els.filter fun e => selectedTags.contains e.tag).foldl processElement []

end MainGo

namespace Part000

/-! ### The unnamed (`part_000`) variant -/

/-- The `doc.Find("input, select, textarea, a")` selector (no `form`). -/
def selectedTags : List String := ["input", "select", "textarea", "a"]

/-- `part_000`'s `mergeQueryParameters`:
`params1[key] = append(params1[key], values...)` for every key of
`params2`. -/
def mergeQueryParameters (params1 params2 : Values) : Values :=
  Values.addPairs params1 params2

/-- Trim, and replace an empty result by the sentinel. -/
def normalizeValue (v : String) : String :=
  let t := trimSpace v
  if t = "" then "FUZZ" else t

/-- The body of the `Each` callback of `part_000`'s
`extractQueryParamsFromHTML`.  The `url.Parse` error on `href`/`src` is
discarded (`parsedURL, _ := url.Parse(href)`), after which
`parsedURL.Query()` dereferences a nil pointer: that runtime panic is
modelled as `none`. -/
def processElement (params : Values) (e : Element) : Option Values :=
  let name := e.name.getD ""
  let value := e.value.getD ""
  let href := e.href.getD ""
  let src := e.src.getD ""
  let params :=
    if name ≠ "" then Values.add params name (normalizeValue value) else params
  let afterHref : Option Values :=
    if href ≠ "" then
      (parseGoURL href).map fun u => mergeQueryParameters params (parseQuery ⟨u.rawQuery⟩)
    else some params
  match afterHref with
  | none => none
  | some params =>
    if src ≠ "" then
      (parseGoURL src).map fun u => mergeQueryParameters params (parseQuery ⟨u.rawQuery⟩)
    else some params

def foldElements : Values → List Element → Option Values
  | m, [] => some m
  | m, e :: es =>
    match processElement m e with
    | none => none
    | some m' => foldElements m' es

/-- `part_000`'s `extractQueryParamsFromHTML`: on a parse error the whole
element scan and the normalization pass are skipped (`if err == nil`) and
the empty map is returned; otherwise scan the selected elements and then
trim every value, replacing empty ones with `"FUZZ"`.  A `none` result is
the nil-pointer panic on a malformed `href`/`src`. -/
def extractQueryParamsFromHTML (docOutcome : Option (List Element)) : Option Values :=
  match docOutcome with
  | none => some []
  | some els =>
    match foldElements [] (els.filter fun e => selectedTags.contains e.tag) with
    | none => none
    | some m => some (m.map fun p => (p.1, p.2.map normalizeValue))

end Part000

/-! ## The per-URL pipeline (`main.go`'s `processURL`) -/

/-- The startup configuration shared by all workers (the flags
`processURL` reads). -/
structure Config where
  customHeaders : List String
  proxy : String
  baseURL : String
  method : String
deriving DecidableEq

inductive ProcError where
  | proxyErr
  | requestErr
  | invalidHeader (h : String)
  | networkErr
  | urlParseErr (u : String)
deriving DecidableEq

/-- Outcome of `processURL` for one URL: the error (if any), the line
written to the output file (if any), and whether `client.Do` was
reached. -/
structure ProcResult where
  err : Option ProcError
  line : Option String
  sent : Bool
deriving DecidableEq

/-- `strings.SplitN(header, ":", 2)`: `none` is the length-1 case (no
colon), otherwise the trimmed key and value. -/
def splitHeader (h : String) : Option (String × String) :=
  match splitAtChar ':' h.data with
  | (_, none) => none
  | (k, some v) => some (trimSpace ⟨k⟩, trimSpace ⟨v⟩)

/-- The header loop of `processURL`: returns the first header without a
colon as the error, or all parsed headers in order. -/
def parseHeaders : List String → Except String (List (String × String))
  | [] => .ok []
  | h :: hs =>
    match splitHeader h with
    | none => .error h
    | some kv =>
      match parseHeaders hs with
      | .error e => .error e
      | .ok rest => .ok (kv :: rest)

/-- `net/http`'s token characters (`isTokenRune`), by code point:
alphanumerics and `! # $ % & ' * + - . ^ _ \x60 | ~`. -/
def isTokenChar (c : Char) : Bool :=
  isAlphaCh c || isDigitCh c ||
  [33, 35, 36, 37, 38, 39, 42, 43, 45, 46, 94, 95, 96, 124, 126].contains c.toNat

/-- `http.NewRequest`'s method check (an empty method defaults to GET). -/
def methodOK (m : String) : Bool := m.isEmpty || m.data.all isTokenChar

/-- `main.go`'s `processURL`, with the HTTP client and the HTML parser as
oracles.  Stages in source order: proxy URL parse, base-URL
concatenation, `http.NewRequest` (method check and URL parse),
per-header split, `client.Do` (the `sent` flag records reaching it),
extraction, and — only when the extracted map is non-empty — parsing the
original URL, replacing its `RawQuery` with the encoded map, and writing
the serialized URL as one output line. -/
def processURL (cfg : Config) (urlStr : String)
    (fetch : String → List (String × String) → Option String)
    (parseHTML : String → Option (List Element)) : ProcResult :=
  if cfg.proxy ≠ "" ∧ parseGoURL cfg.proxy = none then
    ⟨some .proxyErr, none, false⟩
  else
    let finalURL := cfg.baseURL ++ urlStr
    if ¬ (methodOK cfg.method ∧ (parseGoURL finalURL).isSome) then
      ⟨some .requestErr, none, false⟩
    else
      match parseHeaders cfg.customHeaders with
      | .error h => ⟨some (.invalidHeader h), none, false⟩
      | .ok headers =>
        match fetch finalURL headers with
        | none => ⟨some .networkErr, none, true⟩
        | some body =>
          let queryParameters := MainGo.extractQueryParamsFromHTML (parseHTML body)
          if queryParameters.isEmpty then ⟨none, none, true⟩
          else
            match parseGoURL urlStr with
            | none => ⟨some (.urlParseErr urlStr), none, true⟩
            | some parsedURL =>
              ⟨none,
               some (urlToString { parsedURL with rawQuery := (Values.encode queryParameters).data }),
               true⟩

/-! ## The worker pool

Each worker consumes some of the input URLs and appends one line per
successful non-empty extraction; a run of the pool is described by the
batch each worker processed.  Writes are line-atomic (one `WriteString`
per URL), so a run's observable output is the multiset of lines. -/

/-- The output line `processURL` writes for one URL, if any. -/
def lineOf (cfg : Config) (fetch : String → List (String × String) → Option String)
    (parseHTML : String → Option (List Element)) (u : String) : Option String :=
  (processURL cfg u fetch parseHTML).line

/-- All lines one worker writes for its batch, in order. -/
def workerRun (cfg : Config) (fetch : String → List (String × String) → Option String)
    (parseHTML : String → Option (List Element)) (batch : List String) : List String :=
  batch.filterMap (lineOf cfg fetch parseHTML)

/-- The lines of a whole run, given the batch each worker consumed. -/
def pipelineLines (cfg : Config) (fetch : String → List (String × String) → Option String)
    (parseHTML : String → Option (List Element)) (batches : List (List String)) : List String :=
  (batches.map (workerRun cfg fetch parseHTML)).flatten

/-! ## Well-formedness of parsed URLs

`WF u` collects the invariants every `parseGoURL` result satisfies; they
are exactly what makes `urlToString` re-parse to the same `GoURL`. -/

/-- Scanning from a state with a non-empty scheme candidate: true when a
stopping (non-scheme) character or the end of the list is reached before
any `:`. -/
def cleanTail : List Char → Bool
  | [] => true
  | c :: cs => if c = ':' then false else if isSchemeCh c then cleanTail cs else true

/-- Invariants of a `parseGoURL` result. -/
structure WF (u : GoURL) : Prop where
  scheme_shape : u.scheme = [] ∨ ∃ c cs, u.scheme = c :: cs ∧ isAlphaCh c = true
  scheme_chars : ∀ c ∈ u.scheme, isSchemeCh c = true
  opq_ctl : ∀ c ∈ u.opq, isCtl c = false
  opq_no_q : '?' ∉ u.opq
  opq_no_h : '#' ∉ u.opq
  opq_head : u.opq.head? ≠ some '/'
  opq_scheme : u.opq ≠ [] → u.scheme ≠ []
  opq_excl : u.opq ≠ [] → u.host = [] ∧ u.path = [] ∧ u.omitHost = false
  host_ctl : ∀ c ∈ u.host, isCtl c = false
  host_no_slash : '/' ∉ u.host
  host_no_q : '?' ∉ u.host
  host_no_h : '#' ∉ u.host
  host_pv : percentValid u.host = true
  host_port : portOK u.host = true
  host_path : u.host ≠ [] → u.path = [] ∨ u.path.head? = some '/'
  path_ctl : ∀ c ∈ u.path, isCtl c = false
  path_no_q : '?' ∉ u.path
  path_no_h : '#' ∉ u.path
  path_pv : percentValid u.path = true
  path_colon : u.scheme = [] → u.host = [] → u.opq = [] →
    ':' ∉ (splitAtChar '/' u.path).1
  omit_shape : u.omitHost = true → u.scheme ≠ [] ∧ u.host = [] ∧ u.opq = [] ∧
    u.path.head? = some '/' ∧ startsWithL ['/', '/'] u.path = false
  path_shape : u.omitHost = false → u.scheme ≠ [] → u.host = [] → u.opq = [] →
    u.path = [] ∨ u.path.head? = some '/'
  path_slash3 : u.scheme = [] → u.host = [] → startsWithL ['/', '/'] u.path = true →
    startsWithL ['/', '/', '/'] u.path = true
  rq_ctl : ∀ c ∈ u.rawQuery, isCtl c = false
  rq_no_h : '#' ∉ u.rawQuery
  frag_pv : percentValid u.fragment = true

/-! ## Concrete instances used to settle individual claims -/

/-- The parsed form of the spec's end-to-end example HTML
`<form action="/search?x=1"><input name="q"></form>`: the selected
elements in document order with the attributes they carry. -/
def formDoc : List Element :=
  [{ tag := "form", action := some "/search?x=1" },
   { tag := "input", name := some "q" }]

/-- A configuration with no custom headers, proxy, base URL, and the
default GET method. -/
def plainConfig : Config := { customHeaders := [], proxy := "", baseURL := "", method := "GET" }

/-- A raw URL containing an ASCII control byte, which `url.Parse`
rejects (`invalid control character in URL`). -/
def badURL : String := "ht\ntp://x"

/-- A document with an anchor whose `href` is malformed, followed by an
input that still carries a parameter. -/
def badHrefDoc : List Element :=
  [{ tag := "a", href := some badURL },
   { tag := "input", name := some "q" }]

/-- The ParameterMap of the spec's round-trip example. -/
def roundTripMap : Values := [("q", ["FUZZ", "1"]), ("id", ["5"])]

/-! ## Lemmas: splitting -/

theorem splitAtChar_eq_of_not_mem (ch : Char) (l : List Char) (h : ch ∉ l) :
    splitAtChar ch l = (l, none) := by
  induction l with
  | nil => rfl
  | cons c cs ih =>
    have hc : c ≠ ch := fun hc => h (hc ▸ List.mem_cons_self c cs)
    have hcs : ch ∉ cs := fun hm => h (List.mem_cons_of_mem c hm)
    simp [splitAtChar, hc, ih hcs]

theorem splitAtChar_append_cons (ch : Char) (l₁ l₂ : List Char) (h : ch ∉ l₁) :
    splitAtChar ch (l₁ ++ ch :: l₂) = (l₁, some l₂) := by
  induction l₁ with
  | nil => simp [splitAtChar]
  | cons c cs ih =>
    have hc : c ≠ ch := fun hc => h (hc ▸ List.mem_cons_self c cs)
    have hcs : ch ∉ cs := fun hm => h (List.mem_cons_of_mem c hm)
    simp [splitAtChar, hc, ih hcs]

theorem splitAtChar_isSome_of_mem (ch : Char) (l : List Char) (h : ch ∈ l) :
    ((splitAtChar ch l).2).isSome := by
  induction l with
  | nil => cases h
  | cons c cs ih =>
    by_cases hc : c = ch
    · simp [splitAtChar, hc]
    · have : ch ∈ cs := by
        rcases List.mem_cons.mp h with h' | h'
        · exact absurd h'.symm hc
        · exact h'
      simp [splitAtChar, hc, ih this]

theorem splitHeader_eq_none_iff (h : String) :
    splitHeader h = none ↔ ':' ∉ h.data := by
  constructor
  · intro hs hm
    have := splitAtChar_isSome_of_mem ':' h.data hm
    unfold splitHeader at hs
    rcases heq : splitAtChar ':' h.data with ⟨a, b⟩
    rw [heq] at hs this
    cases b with
    | none => simp at this
    | some v => simp at hs
  · intro hm
    unfold splitHeader
    rw [splitAtChar_eq_of_not_mem ':' h.data hm]

/-! ## Lemmas: `Values` -/

theorem Values.get_add_same (m : Values) (k v : String) :
    Values.get (Values.add m k v) k = Values.get m k ++ [v] := by
  induction m with
  | nil => simp [Values.add, Values.get]
  | cons p rest ih =>
    by_cases h : p.1 = k
    · simp [Values.add, Values.get, h]
    · simp [Values.add, Values.get, h, ih]

theorem Values.get_add_ne (m : Values) (k v k' : String) (h : k' ≠ k) :
    Values.get (Values.add m k v) k' = Values.get m k' := by
  have h' : ¬ k = k' := fun he => h he.symm
  induction m with
  | nil => simp [Values.add, Values.get, h']
  | cons p rest ih =>
    by_cases hp : p.1 = k
    · simp [Values.add, Values.get, hp, h']
    · simp [Values.add, Values.get, hp, ih]

theorem Values.mem_get_add (m : Values) (k v k' : String) (w : String)
    (hw : w ∈ Values.get m k') : w ∈ Values.get (Values.add m k v) k' := by
  by_cases h : k' = k
  · subst h; rw [Values.get_add_same]; exact List.mem_append_left _ hw
  · rwa [Values.get_add_ne m k v k' h]

theorem Values.get_addList_same (m : Values) (k : String) (vs : List String) :
    Values.get (Values.addList m k vs) k = Values.get m k ++ vs := by
  induction vs generalizing m with
  | nil => simp [Values.addList]
  | cons v vs ih =>
    show Values.get (Values.addList (Values.add m k v) k vs) k = _
    rw [ih, Values.get_add_same, List.append_assoc]
    rfl

theorem Values.mem_get_addList (m : Values) (k : String) (vs : List String)
    (k' w : String) (hw : w ∈ Values.get m k') :
    w ∈ Values.get (Values.addList m k vs) k' := by
  induction vs generalizing m with
  | nil => exact hw
  | cons v vs ih => exact ih (Values.add m k v) (Values.mem_get_add m k v k' w hw)

theorem Values.mem_get_addPairs (m : Values) (ps : List (String × List String))
    (k w : String) (hw : w ∈ Values.get m k) :
    w ∈ Values.get (Values.addPairs m ps) k := by
  induction ps generalizing m with
  | nil => exact hw
  | cons p rest ih =>
    exact ih (Values.addList m p.1 p.2) (Values.mem_get_addList m p.1 p.2 k w hw)

theorem Values.mem_get_addPairs_of_src (m : Values) (ps : List (String × List String))
    (k w : String) (hw : w ∈ Values.get ps k) :
    w ∈ Values.get (Values.addPairs m ps) k := by
  induction ps generalizing m with
  | nil => cases hw
  | cons p rest ih =>
    by_cases hk : p.1 = k
    · subst hk
      have hget : Values.get (p :: rest) p.1 = p.2 := by simp [Values.get]
      rw [hget] at hw
      have base : w ∈ Values.get (Values.addList m p.1 p.2) p.1 := by
        rw [Values.get_addList_same]; exact List.mem_append_right _ hw
      exact Values.mem_get_addPairs _ rest p.1 w base
    · have hget : Values.get (p :: rest) k = Values.get rest k := by simp [Values.get, hk]
      rw [hget] at hw
      exact ih (Values.addList m p.1 p.2) hw

/-! ## Lemmas: the `main.go` extractor only ever appends -/

theorem MainGo.mem_get_parseURLAndAdd (rawurl : String) (m : Values) (k w : String)
    (hw : w ∈ Values.get m k) :
    w ∈ Values.get (MainGo.parseURLAndAddQueryParameters rawurl m) k := by
  unfold MainGo.parseURLAndAddQueryParameters
  cases parseGoURL rawurl with
  | none => exact hw
  | some u => exact Values.mem_get_addPairs _ _ _ _ hw

theorem MainGo.mem_get_addNameValue (m : Values) (e : Element) (k w : String)
    (hw : w ∈ Values.get m k) : w ∈ Values.get (MainGo.addNameValue m e) k := by
  unfold MainGo.addNameValue
  cases e.name with
  | none => exact hw
  | some n => exact Values.mem_get_add _ _ _ _ _ hw

theorem MainGo.mem_get_addHrefParams (m : Values) (e : Element) (k w : String)
    (hw : w ∈ Values.get m k) : w ∈ Values.get (MainGo.addHrefParams m e) k := by
  unfold MainGo.addHrefParams
  cases e.href with
  | none => exact hw
  | some h => exact MainGo.mem_get_parseURLAndAdd _ _ _ _ hw

theorem MainGo.mem_get_addActionParams (m : Values) (e : Element) (k w : String)
    (hw : w ∈ Values.get m k) : w ∈ Values.get (MainGo.addActionParams m e) k := by
  unfold MainGo.addActionParams
  cases e.action with
  | none => exact hw
  | some a => exact MainGo.mem_get_parseURLAndAdd _ _ _ _ hw

theorem MainGo.mem_get_processElement (m : Values) (e : Element) (k w : String)
    (hw : w ∈ Values.get m k) : w ∈ Values.get (MainGo.processElement m e) k :=
  MainGo.mem_get_addActionParams _ _ _ _
    (MainGo.mem_get_addHrefParams _ _ _ _ (MainGo.mem_get_addNameValue _ _ _ _ hw))

theorem MainGo.mem_get_foldl (els : List Element) (m : Values) (k w : String)
    (hw : w ∈ Values.get m k) :
    w ∈ Values.get (els.foldl MainGo.processElement m) k := by
  induction els generalizing m with
  | nil => exact hw
  | cons e es ih => exact ih _ (MainGo.mem_get_processElement m e k w hw)

/-! ## Lemmas: skipping a malformed `href`/`action` -/

theorem MainGo.processElement_href_malformed (e : Element) (hr : String)
    (hhr : parseGoURL hr = none) (m : Values) :
    MainGo.processElement m { e with href := some hr } =
      MainGo.processElement m { e with href := none } := by
  simp [MainGo.processElement, MainGo.addNameValue, MainGo.addHrefParams,
    MainGo.addActionParams, MainGo.parseURLAndAddQueryParameters, hhr]

theorem MainGo.processElement_action_malformed (e : Element) (ac : String)
    (hac : parseGoURL ac = none) (m : Values) :
    MainGo.processElement m { e with action := some ac } =
      MainGo.processElement m { e with action := none } := by
  simp [MainGo.processElement, MainGo.addNameValue, MainGo.addHrefParams,
    MainGo.addActionParams, MainGo.parseURLAndAddQueryParameters, hac]

theorem MainGo.extract_congr (pre post : List Element) (e e' : Element)
    (htag : e.tag = e'.tag)
    (hstep : ∀ m, MainGo.processElement m e = MainGo.processElement m e') :
    MainGo.extractQueryParamsFromHTML (some (pre ++ e :: post)) =
      MainGo.extractQueryParamsFromHTML (some (pre ++ e' :: post)) := by
  unfold MainGo.extractQueryParamsFromHTML
  simp only [List.filter_append, List.filter_cons, htag]
  by_cases hsel : MainGo.selectedTags.contains e'.tag
  · simp only [hsel, if_true, List.foldl_append, List.foldl_cons, hstep]
  · simp only [hsel, Bool.false_eq_true, if_false]

/-! ## Lemmas: trimmed values are never blank -/

theorem exists_not_space_of_dropWhile_ne_nil (l : List Char)
    (h : l.dropWhile isGoSpace ≠ []) :
    ∃ c ∈ l.dropWhile isGoSpace, isGoSpace c = false := by
  induction l with
  | nil => simp [List.dropWhile] at h
  | cons c cs ih =>
    by_cases hc : isGoSpace c
    · rw [List.dropWhile_cons_of_pos hc] at h ⊢
      exact ih h
    · rw [List.dropWhile_cons_of_neg hc]
      exact ⟨c, List.mem_cons_self _ _, Bool.eq_false_iff.mpr hc⟩

theorem trimSpaceL_has_not_space (l : List Char) (h : trimSpaceL l ≠ []) :
    ∃ c ∈ trimSpaceL l, isGoSpace c = false := by
  unfold trimSpaceL at h ⊢
  have h' : (l.dropWhile isGoSpace).reverse.dropWhile isGoSpace ≠ [] := by
    intro he; rw [he] at h; exact h rfl
  obtain ⟨c, hc, hcs⟩ := exists_not_space_of_dropWhile_ne_nil _ h'
  exact ⟨c, List.mem_reverse.mpr hc, hcs⟩

theorem normalizeValue_not_blank (v : String) :
    (Part000.normalizeValue v).data ≠ [] ∧
      ∃ c ∈ (Part000.normalizeValue v).data, isGoSpace c = false := by
  unfold Part000.normalizeValue
  by_cases ht : trimSpace v = ""
  · simp only [ht, if_pos rfl]
    exact ⟨by decide, 'F', by decide, by decide⟩
  · simp only [if_neg ht]
    have hne : trimSpaceL v.data ≠ [] := by
      intro he
      exact ht (congrArg String.mk he)
    exact ⟨hne, trimSpaceL_has_not_space v.data hne⟩

theorem Values.get_mapValues (m : Values) (f : String → String) (k : String) :
    Values.get (m.map fun p => (p.1, p.2.map f)) k = (Values.get m k).map f := by
  induction m with
  | nil => rfl
  | cons p rest ih =>
    by_cases h : p.1 = k
    · simp [Values.get, h]
    · simp [Values.get, h, ih]

/-! ## Lemmas: the pipeline output is the per-URL lines -/

theorem pipelineLines_eq_filterMap (cfg : Config)
    (fetch : String → List (String × String) → Option String)
    (parseHTML : String → Option (List Element)) (batches : List (List String)) :
    pipelineLines cfg fetch parseHTML batches =
      batches.flatten.filterMap (lineOf cfg fetch parseHTML) := by
  induction batches with
  | nil => rfl
  | cons b bs ih =>
    simp only [pipelineLines, workerRun, List.map_cons, List.flatten_cons,
      List.filterMap_append] at ih ⊢
    rw [ih]

/-! ## Claim C1: value normalization -/

/-- Claim C1, counterexample.  In `main.go`'s `extractQueryParamsFromHTML`
there is no trim/`"FUZZ"` normalization at all: for the HTML body
`<input name="q" value=" ">` the attribute `value` exists (goquery's
`AttrOr` returns it), so the whitespace-only string `" "` is stored
verbatim in the ParameterMap, contradicting the claim that every value is
non-empty after trimming or equals `"FUZZ"`. -/
theorem C1_counterexample :
    Values.get (MainGo.extractQueryParamsFromHTML
        (some [{ tag := "input", name := some "q", value := some " " }])) "q" = [" "] ∧
      (" " : String).data.all isGoSpace = true ∧ (" " : String) ≠ "FUZZ" :=
  ⟨by decide, by decide, by decide⟩

/-- Claim C1 (amended): the normalization invariant does hold for the
`part_000` variant of `extractQueryParamsFromHTML`, whose final pass
trims every value and replaces empty results with `"FUZZ"`: whenever that
extractor returns a map (i.e. does not crash on a malformed `href`/`src`),
no value in it is empty or whitespace-only. -/
theorem C1_part000_values_never_blank (oc : Option (List Element)) (res : Values)
    (hres : Part000.extractQueryParamsFromHTML oc = some res)
    (k v : String) (hv : v ∈ Values.get res k) :
    v.data ≠ [] ∧ ∃ c ∈ v.data, isGoSpace c = false := by
  cases oc with
  | none =>
    simp only [Part000.extractQueryParamsFromHTML, Option.some.injEq] at hres
    subst hres
    cases hv
  | some els =>
    simp only [Part000.extractQueryParamsFromHTML] at hres
    cases hfold : Part000.foldElements []
        (els.filter fun e => Part000.selectedTags.contains e.tag) with
    | none => rw [hfold] at hres; cases hres
    | some m =>
      rw [hfold] at hres
      simp only [Option.some.injEq] at hres
      subst hres
      rw [Values.get_mapValues] at hv
      obtain ⟨w, _, hw⟩ := List.mem_map.mp hv
      subst hw
      exact normalizeValue_not_blank w

/-- Claim C1, witness for the amended theorem at a concrete document. -/
theorem C1_witness :
    ("FUZZ" : String).data ≠ [] ∧ ∃ c ∈ ("FUZZ" : String).data, isGoSpace c = false :=
  C1_part000_values_never_blank
    (some [{ tag := "input", name := some "q", value := some " " }])
    [("q", ["FUZZ"])] (by decide) "q" "FUZZ" (by decide)

/-! ## Claim C2: the end-to-end example -/

/-- Claim C2 (amended: this is the behaviour of `main.go`, whose selector
is `a, form, input, select, textarea` and which reads `action`): for the
example HTML `<form action="/search?x=1"><input name="q"></form>` the
extractor produces exactly `x ↦ ["1"], q ↦ ["FUZZ"]`, and processing the
URL `http://h/page` with that response writes exactly the line
`http://h/page?q=FUZZ&x=1`. -/
theorem C2_end_to_end :
    MainGo.extractQueryParamsFromHTML (some formDoc) = [("x", ["1"]), ("q", ["FUZZ"])] ∧
      processURL plainConfig "http://h/page" (fun _ _ => some "<html>") (fun _ => some formDoc) =
        ⟨none, some "http://h/page?q=FUZZ&x=1", true⟩ :=
  ⟨by decide, by decide⟩

/-- Claim C2, counterexample.  The `part_000` variant of the extractor
does not satisfy the claim on the same document: its selector omits
`form` and it never reads `action`, so the example yields only
`q ↦ ["FUZZ"]` — the key `"x"` is absent (and the written line would be
`http://h/page?q=FUZZ`). -/
theorem C2_counterexample :
    Part000.extractQueryParamsFromHTML (some formDoc) = some [("q", ["FUZZ"])] ∧
      (Part000.extractQueryParamsFromHTML (some formDoc)).map (fun m => Values.get m "x") =
        some [] :=
  ⟨by decide, by decide⟩

/-! ## Claim C3: malformed URLs are skipped -/

/-- Claim C3 (amended: this is the behaviour of `main.go`, whose
`parseURLAndAddQueryParameters` returns without adding anything when
`url.Parse` fails): extraction is total, and an element whose `href`
(resp. `action`) does not parse contributes exactly as much as the same
element without that attribute — every other element of the document is
still processed and its parameters are returned. -/
theorem C3_malformed_url_skipped (pre post : List Element) (e : Element) (hr ac : String)
    (hhr : parseGoURL hr = none) (hac : parseGoURL ac = none) :
    MainGo.extractQueryParamsFromHTML (some (pre ++ { e with href := some hr } :: post)) =
        MainGo.extractQueryParamsFromHTML (some (pre ++ { e with href := none } :: post)) ∧
      MainGo.extractQueryParamsFromHTML (some (pre ++ { e with action := some ac } :: post)) =
        MainGo.extractQueryParamsFromHTML (some (pre ++ { e with action := none } :: post)) :=
  ⟨MainGo.extract_congr pre post _ _ rfl (fun m => MainGo.processElement_href_malformed e hr hhr m),
   MainGo.extract_congr pre post _ _ rfl (fun m => MainGo.processElement_action_malformed e ac hac m)⟩

/-- Claim C3, counterexample.  The `part_000` variant contradicts the
claim: it discards the `url.Parse` error (`parsedURL, _ := url.Parse(href)`)
and then calls `parsedURL.Query()` on the nil result, so a malformed
`href` crashes the extraction (modelled as `none`) instead of returning
the parameters of the remaining elements. -/
theorem C3_counterexample :
    parseGoURL badURL = none ∧
      Part000.extractQueryParamsFromHTML (some badHrefDoc) = none :=
  ⟨by decide, by decide⟩

/-- Claim C3, witness: the amended theorem applied to a concrete document
with a parameter-bearing anchor before and an input after the malformed
element. -/
theorem C3_witness :
    MainGo.extractQueryParamsFromHTML
        (some ([{ tag := "a", href := some "?a=1" }] ++
          { Element.mk "a" none none none none none with href := some badURL } ::
            [{ tag := "input", name := some "q" }])) =
      MainGo.extractQueryParamsFromHTML
        (some ([{ tag := "a", href := some "?a=1" }] ++
          { Element.mk "a" none none none none none with href := none } ::
            [{ tag := "input", name := some "q" }])) ∧
    MainGo.extractQueryParamsFromHTML
        (some ([{ tag := "a", href := some "?a=1" }] ++
          { Element.mk "a" none none none none none with action := some badURL } ::
            [{ tag := "input", name := some "q" }])) =
      MainGo.extractQueryParamsFromHTML
        (some ([{ tag := "a", href := some "?a=1" }] ++
          { Element.mk "a" none none none none none with action := none } ::
            [{ tag := "input", name := some "q" }])) :=
  C3_malformed_url_skipped [{ tag := "a", href := some "?a=1" }]
    [{ tag := "input", name := some "q" }] (Element.mk "a" none none none none none)
    badURL badURL (by decide) (by decide)

/-! ## Claim C7: round-trip encoding -/

/-- Claim C7: encoding the ParameterMap `q ↦ ["FUZZ","1"], id ↦ ["5"]`
with `url.Values.Encode` and re-parsing the query string with
`url.ParseQuery` yields the identical map — the same key set with the
same value sequences (maps are compared in sorted-key canonical form,
since Go maps are unordered). -/
theorem C7_round_trip :
    Values.encode roundTripMap = "id=5&q=FUZZ&q=1" ∧
      sortByKey (parseQuery (Values.encode roundTripMap)) = sortByKey roundTripMap :=
  ⟨by decide, by decide⟩

/-! ## Claim C4: header validation -/

theorem parseHeaders_error_of_bad (hs : List String) (bad : String)
    (hmem : bad ∈ hs) (hnc : ':' ∉ bad.data) :
    ∃ h, parseHeaders hs = .error h ∧ ':' ∉ h.data ∧ h ∈ hs := by
  induction hs with
  | nil => cases hmem
  | cons h hs ih =>
    cases hsplit : splitHeader h with
    | none =>
      exact ⟨h, by simp [parseHeaders, hsplit], (splitHeader_eq_none_iff h).mp hsplit,
        List.mem_cons_self _ _⟩
    | some kv =>
      have hbad_ne : bad ≠ h := by
        intro he; subst he
        rw [(splitHeader_eq_none_iff bad).mpr hnc] at hsplit
        cases hsplit
      have hmem' : bad ∈ hs := by
        rcases List.mem_cons.mp hmem with h' | h'
        · exact absurd h' hbad_ne
        · exact h'
      obtain ⟨h', he, hnc', hm⟩ := ih hmem'
      exact ⟨h', by simp [parseHeaders, hsplit, he], hnc', List.mem_cons_of_mem _ hm⟩

/-- Claim C4: if some custom header string has no colon, `processURL`
fails with the invalid-header-format error for (the first) such header
before `client.Do` is ever reached (`sent = false`, no line written) —
provided the earlier stages (proxy parse, request creation) pass, which
is what makes the error specifically the header one.  Headers that do
contain a colon are split at the first colon into a trimmed key and
value. -/
theorem C4_bad_header_aborts (cfg : Config) (urlStr : String)
    (fetch : String → List (String × String) → Option String)
    (parseHTML : String → Option (List Element))
    (bad : String) (hmem : bad ∈ cfg.customHeaders) (hnc : ':' ∉ bad.data)
    (hproxy : ¬ (cfg.proxy ≠ "" ∧ parseGoURL cfg.proxy = none))
    (hreq : methodOK cfg.method ∧ (parseGoURL (cfg.baseURL ++ urlStr)).isSome) :
    (∃ h, ':' ∉ h.data ∧ h ∈ cfg.customHeaders ∧
        processURL cfg urlStr fetch parseHTML = ⟨some (.invalidHeader h), none, false⟩) ∧
      (∀ (hdr : String) (k v : List Char), hdr.data = k ++ ':' :: v → ':' ∉ k →
        splitHeader hdr = some (trimSpace ⟨k⟩, trimSpace ⟨v⟩)) := by
  constructor
  · obtain ⟨h, he, hnc', hm⟩ := parseHeaders_error_of_bad _ bad hmem hnc
    refine ⟨h, hnc', hm, ?_⟩
    unfold processURL
    rw [if_neg hproxy, if_neg (not_not_intro hreq), he]
  · intro hdr k v hdata hk
    unfold splitHeader
    rw [hdata, splitAtChar_append_cons _ _ _ hk]

/-- Claim C4, witness: the single header `"X-Foo"` aborts the request
before any network call, and a concrete header with a colon splits into
trimmed parts. -/
theorem C4_witness :
    (∃ h, ':' ∉ h.data ∧ h ∈ ["X-Foo"] ∧
        processURL { customHeaders := ["X-Foo"], proxy := "", baseURL := "", method := "GET" }
            "http://h/x" (fun _ _ => some "") (fun _ => some []) =
          ⟨some (.invalidHeader h), none, false⟩) ∧
      (∀ (hdr : String) (k v : List Char), hdr.data = k ++ ':' :: v → ':' ∉ k →
        splitHeader hdr = some (trimSpace ⟨k⟩, trimSpace ⟨v⟩)) :=
  C4_bad_header_aborts
    { customHeaders := ["X-Foo"], proxy := "", baseURL := "", method := "GET" }
    "http://h/x" (fun _ _ => some "") (fun _ => some []) "X-Foo"
    (by decide) (by decide) (by simp) ⟨by decide, by decide⟩

/-! ## Claim C5: empty map means no output line -/

/-- Claim C5: when the extracted ParameterMap is empty, `processURL`
returns success with no output line and never reaches the rewriting step
— this holds for every `urlStr`, parseable or not, precisely because the
`len(queryParameters) > 0` guard short-circuits before `url.Parse(urlStr)`
is consulted. -/
theorem C5_empty_params_no_output (cfg : Config) (urlStr body : String)
    (fetch : String → List (String × String) → Option String)
    (parseHTML : String → Option (List Element)) (headers : List (String × String))
    (hproxy : ¬ (cfg.proxy ≠ "" ∧ parseGoURL cfg.proxy = none))
    (hreq : methodOK cfg.method ∧ (parseGoURL (cfg.baseURL ++ urlStr)).isSome)
    (hh : parseHeaders cfg.customHeaders = .ok headers)
    (hf : fetch (cfg.baseURL ++ urlStr) headers = some body)
    (hempty : MainGo.extractQueryParamsFromHTML (parseHTML body) = []) :
    processURL cfg urlStr fetch parseHTML = ⟨none, none, true⟩ := by
  unfold processURL
  rw [if_neg hproxy, if_neg (not_not_intro hreq)]
  simp only [hh, hf, hempty, List.isEmpty_nil, if_true]

/-- Claim C5, witness: a response with no extractable parameters — here
processed for an unparseable original URL to exhibit that the rewriter is
indeed never consulted. -/
theorem C5_witness :
    processURL { customHeaders := [], proxy := "", baseURL := "http://x/", method := "GET" }
        " b:c" (fun _ _ => some "<p>no params</p>") (fun _ => some []) =
      ⟨none, none, true⟩ :=
  C5_empty_params_no_output
    { customHeaders := [], proxy := "", baseURL := "http://x/", method := "GET" }
    " b:c" "<p>no params</p>" (fun _ _ => some "<p>no params</p>") (fun _ => some []) []
    (by simp) ⟨by decide, by decide⟩ rfl rfl (by decide)

/-! ## Claim C8: HTML-parse failure is silent -/

/-- Claim C8: a failing HTML parse yields the empty map without an error
in both variants of the extractor, and `processURL` then behaves exactly
as for a document with zero parameters: success, no output line. -/
theorem C8_parse_failure_empty_success (cfg : Config) (urlStr body : String)
    (fetch : String → List (String × String) → Option String)
    (parseHTML : String → Option (List Element)) (headers : List (String × String))
    (hproxy : ¬ (cfg.proxy ≠ "" ∧ parseGoURL cfg.proxy = none))
    (hreq : methodOK cfg.method ∧ (parseGoURL (cfg.baseURL ++ urlStr)).isSome)
    (hh : parseHeaders cfg.customHeaders = .ok headers)
    (hf : fetch (cfg.baseURL ++ urlStr) headers = some body)
    (hparse : parseHTML body = none) :
    MainGo.extractQueryParamsFromHTML none = [] ∧
      Part000.extractQueryParamsFromHTML none = some [] ∧
      processURL cfg urlStr fetch parseHTML = ⟨none, none, true⟩ := by
  refine ⟨rfl, rfl, ?_⟩
  unfold processURL
  rw [if_neg hproxy, if_neg (not_not_intro hreq)]
  simp only [hh, hf, hparse, MainGo.extractQueryParamsFromHTML, List.isEmpty_nil, if_true]

/-- Claim C8, witness: an unparseable body is treated as zero
parameters. -/
theorem C8_witness :
    MainGo.extractQueryParamsFromHTML none = [] ∧
      Part000.extractQueryParamsFromHTML none = some [] ∧
      processURL { customHeaders := [], proxy := "", baseURL := "", method := "GET" }
          "http://h/x" (fun _ _ => some "\xff garbage") (fun _ => none) =
        ⟨none, none, true⟩ :=
  C8_parse_failure_empty_success
    { customHeaders := [], proxy := "", baseURL := "", method := "GET" }
    "http://h/x" "\xff garbage" (fun _ _ => some "\xff garbage") (fun _ => none) []
    (by simp) ⟨by decide, by decide⟩ rfl rfl rfl

/-! ## Claim C6: merge completeness -/

/-- Claim C6: an element carrying both a `name`/`value` pair and an
`href` with query parameters contributes the entries of both sources to
the final map, wherever it sits in the document; and `Values.add` (the
merge primitive of both variants) appends to the key's value list and
leaves every other key untouched — it never overwrites or drops. -/
theorem C6_merge_completeness (pre post : List Element) (e : Element)
    (n v h : String) (U : GoURL)
    (hsel : MainGo.selectedTags.contains e.tag = true)
    (hn : e.name = some n) (hv : e.value = some v) (hh : e.href = some h)
    (hU : parseGoURL h = some U) :
    (v ∈ Values.get (MainGo.extractQueryParamsFromHTML (some (pre ++ e :: post))) n) ∧
      (∀ k w, w ∈ Values.get (parseQuery ⟨U.rawQuery⟩) k →
        w ∈ Values.get (MainGo.extractQueryParamsFromHTML (some (pre ++ e :: post))) k) ∧
      (∀ (m : Values) (k v' k' : String),
        Values.get (Values.add m k v') k = Values.get m k ++ [v'] ∧
          (k' ≠ k → Values.get (Values.add m k v') k' = Values.get m k')) := by
  have hmain : ∀ k w,
      w ∈ Values.get (MainGo.addHrefParams (MainGo.addNameValue
        (List.foldl MainGo.processElement []
          (List.filter (fun e => MainGo.selectedTags.contains e.tag) pre)) e) e) k →
      w ∈ Values.get (MainGo.extractQueryParamsFromHTML (some (pre ++ e :: post))) k := by
    intro k w hw
    show w ∈ Values.get (List.foldl MainGo.processElement []
      (List.filter (fun e => MainGo.selectedTags.contains e.tag) (pre ++ e :: post))) k
    rw [List.filter_append, List.filter_cons, if_pos hsel, List.foldl_append, List.foldl_cons]
    exact MainGo.mem_get_foldl _ _ _ _ (MainGo.mem_get_addActionParams _ _ _ _ hw)
  set m0 := List.foldl MainGo.processElement []
    (List.filter (fun e => MainGo.selectedTags.contains e.tag) pre) with hm0
  have hname : MainGo.addNameValue m0 e = Values.add m0 n v := by
    simp [MainGo.addNameValue, hn, hv]
  have hhref : MainGo.addHrefParams (Values.add m0 n v) e =
      Values.addPairs (Values.add m0 n v) (parseQuery ⟨U.rawQuery⟩) := by
    simp [MainGo.addHrefParams, hh, MainGo.parseURLAndAddQueryParameters, hU]
  refine ⟨?_, ?_, ?_⟩
  · apply hmain
    rw [hname, hhref]
    apply Values.mem_get_addPairs
    rw [Values.get_add_same]
    exact List.mem_append_right _ (List.mem_singleton.mpr rfl)
  · intro k w hw
    apply hmain
    rw [hname, hhref]
    exact Values.mem_get_addPairs_of_src _ _ _ _ hw
  · intro m k v' k'
    exact ⟨Values.get_add_same m k v', fun hk => Values.get_add_ne m k v' k' hk⟩

/-- Claim C6, witness: a single anchor with `name="n" value="v"` and
`href="/p?k=w"` yields both `v` under `n` and `w` under `k`. -/
theorem C6_witness :
    ("v" : String) ∈ Values.get (MainGo.extractQueryParamsFromHTML
      (some ([] ++ Element.mk "a" (some "n") (some "v") (some "/p?k=w") none none :: []))) "n" :=
  (C6_merge_completeness [] [] _ "n" "v" "/p?k=w"
    ⟨[], [], [], ['/', 'p'], ['k', '=', 'w'], [], false, false⟩
    (by decide) rfl rfl rfl (by decide)).1

/-! ## Claim C10: concurrency does not change the output set -/

/-- Claim C10: for a fixed configuration and fixed per-URL responses, the
multiset of output lines of a worker-pool run depends only on which URLs
were processed, not on how they were distributed over workers: any two
distributions of the same input URLs (e.g. ten workers vs. one worker)
produce the same lines up to order. -/
theorem C10_concurrency_independent (cfg : Config)
    (fetch : String → List (String × String) → Option String)
    (parseHTML : String → Option (List Element)) (urls : List String)
    (batches₁ batches₂ : List (List String))
    (h₁ : batches₁.flatten.Perm urls) (h₂ : batches₂.flatten.Perm urls) :
    (pipelineLines cfg fetch parseHTML batches₁ : Multiset String) =
      (pipelineLines cfg fetch parseHTML batches₂ : Multiset String) := by
  rw [pipelineLines_eq_filterMap, pipelineLines_eq_filterMap]
  exact Multiset.coe_eq_coe.mpr ((h₁.trans h₂.symm).filterMap _)

/-- Claim C10, witness: two URLs split over one worker vs. two workers. -/
theorem C10_witness :
    (pipelineLines plainConfig (fun _ _ => some "<html>") (fun _ => some formDoc)
        [["http://h/a", "http://h/b"]] : Multiset String) =
      (pipelineLines plainConfig (fun _ _ => some "<html>") (fun _ => some formDoc)
        [["http://h/a"], ["http://h/b"]] : Multiset String) :=
  C10_concurrency_independent plainConfig (fun _ _ => some "<html>") (fun _ => some formDoc)
    ["http://h/a", "http://h/b"] [["http://h/a", "http://h/b"]]
    [["http://h/a"], ["http://h/b"]] (by decide) (by decide)

/-! ## Lemmas: character classes -/

theorem toNat_ofNat_lt (n : Nat) (h : n < 55296) : (Char.ofNat n).toNat = n := by
  have hv : Nat.isValidChar n := Or.inl h
  unfold Char.ofNat
  rw [dif_pos hv]
  simp only [Char.ofNatAux, Char.toNat, UInt32.toNat]
  simp [BitVec.toNat_ofNat]

theorem ne_of_toNat_ne {a b : Char} (h : a.toNat ≠ b.toNat) : a ≠ b :=
  fun he => h (congrArg Char.toNat he)

theorem isSchemeCh_not_ctl (c : Char) (h : isSchemeCh c = true) : isCtl c = false := by
  unfold isSchemeCh isAlphaCh isDigitCh at h
  unfold isCtl
  simp only [Bool.or_eq_true, Bool.and_eq_true, decide_eq_true_eq] at h
  simp only [Bool.or_eq_false_iff, decide_eq_false_iff_not, Nat.not_lt, beq_eq_false_iff_ne,
    ne_eq]
  rcases h with ((((⟨h1, h2⟩ | ⟨h1, h2⟩) | ⟨h1, h2⟩) | h) | h) | h
  · omega
  · omega
  · omega
  · subst h; decide
  · subst h; decide
  · subst h; decide

theorem isSchemeCh_ne (c : Char) (h : isSchemeCh c = true) :
    c ≠ ':' ∧ c ≠ '#' ∧ c ≠ '?' ∧ c ≠ '/' := by
  unfold isSchemeCh isAlphaCh isDigitCh at h
  simp only [Bool.or_eq_true, Bool.and_eq_true, decide_eq_true_eq] at h
  refine ⟨?_, ?_, ?_, ?_⟩ <;> rintro rfl <;>
    rcases h with ((((⟨h1, h2⟩ | ⟨h1, h2⟩) | ⟨h1, h2⟩) | h) | h) | h <;> simp_all

theorem isAlphaCh_isSchemeCh (c : Char) (h : isAlphaCh c = true) : isSchemeCh c = true := by
  unfold isSchemeCh
  rw [h]
  rfl

/-! ## Lemmas: more about splitting -/

theorem splitAtChar_fst_not_mem (ch : Char) (l : List Char) :
    ch ∉ (splitAtChar ch l).1 := by
  induction l with
  | nil => simp [splitAtChar]
  | cons c cs ih =>
    by_cases hc : c = ch
    · simp [splitAtChar, hc]
    · simp only [splitAtChar, if_neg hc]
      intro hmem
      rcases List.mem_cons.mp hmem with h' | h'
      · exact hc h'.symm
      · exact ih h'

theorem splitAtChar_recover (ch : Char) (l : List Char) :
    l = (splitAtChar ch l).1 ++
      (match (splitAtChar ch l).2 with | none => [] | some r => ch :: r) := by
  induction l with
  | nil => rfl
  | cons c cs ih =>
    by_cases hc : c = ch
    · simp [splitAtChar, hc]
    · simpa [splitAtChar, hc] using ih

theorem splitAtChar_snd_none (ch : Char) (l : List Char)
    (h : (splitAtChar ch l).2 = none) : (splitAtChar ch l).1 = l := by
  have := splitAtChar_recover ch l
  rw [h] at this
  simpa using this.symm

/-! ## Lemmas: `getScheme` -/

theorem getSchemeAux_sound (orig : List Char) :
    ∀ l acc, orig = acc.reverse ++ l →
      (∀ c ∈ acc, isSchemeCh c = true) →
      (∀ c cs, acc.reverse = c :: cs → isAlphaCh c = true) →
      ∀ sch rest, getSchemeAux orig l acc = some (sch, rest) →
        (sch = [] ∧ rest = orig) ∨
        (orig = sch ++ ':' :: rest ∧ (∀ c ∈ sch, isSchemeCh c = true) ∧
          ∃ c cs, sch = c :: cs ∧ isAlphaCh c = true) := by
  intro l
  induction l with
  | nil =>
    intro acc _ _ _ sch rest h
    simp only [getSchemeAux, Option.some.injEq, Prod.mk.injEq] at h
    exact Or.inl ⟨h.1.symm, h.2.symm⟩
  | cons c cs ih =>
    intro acc hinv haccS haccA sch rest h
    by_cases hc : c = ':'
    · subst hc
      simp only [getSchemeAux, if_pos rfl] at h
      by_cases hacc : acc.isEmpty
      · rw [if_pos hacc] at h; cases h
      · rw [if_neg hacc] at h
        have h : acc.reverse = sch ∧ cs = rest :=
          ⟨congrArg Prod.fst (Option.some.inj h), congrArg Prod.snd (Option.some.inj h)⟩
        refine Or.inr ⟨?_, ?_, ?_⟩
        · rw [← h.1, ← h.2]; exact hinv
        · intro x hx
          exact haccS x (List.mem_reverse.mp (h.1 ▸ hx))
        · have hne : acc.reverse ≠ [] := by
            intro he
            rw [List.reverse_eq_nil_iff] at he
            rw [he] at hacc
            exact hacc rfl
          rcases hrev : acc.reverse with _ | ⟨c', cs'⟩
          · exact absurd hrev hne
          · exact ⟨c', cs', by rw [← h.1, hrev], haccA c' cs' hrev⟩
    · simp only [getSchemeAux, if_neg hc] at h
      by_cases hcont : (acc.isEmpty && isAlphaCh c) || (!acc.isEmpty && isSchemeCh c)
      · rw [if_pos hcont] at h
        refine ih (c :: acc) ?_ ?_ ?_ sch rest h
        · rw [List.reverse_cons, List.append_assoc]
          exact hinv
        · intro x hx
          rcases List.mem_cons.mp hx with h' | h'
          · subst h'
            rcases Bool.or_eq_true .. |>.mp hcont with h' | h'
            · exact isAlphaCh_isSchemeCh x (Bool.and_eq_true .. |>.mp h').2
            · exact (Bool.and_eq_true .. |>.mp h').2
          · exact haccS x h'
        · intro c' cs' hrev
          rw [List.reverse_cons] at hrev
          rcases hacc : acc.reverse with _ | ⟨a, as⟩
          · rw [hacc] at hrev
            simp only [List.nil_append] at hrev
            cases hrev
            rcases Bool.or_eq_true .. |>.mp hcont with h' | h'
            · exact (Bool.and_eq_true .. |>.mp h').2
            · exfalso
              have : acc = [] := List.reverse_eq_nil_iff.mp hacc
              rw [this] at h'
              simp at h'
          · rw [hacc] at hrev
            simp only [List.cons_append] at hrev
            injection hrev with h1 _
            subst h1
            exact haccA a as hacc
      · rw [if_neg hcont] at h
        simp only [Option.some.injEq, Prod.mk.injEq] at h
        exact Or.inl ⟨h.1.symm, h.2.symm⟩

theorem getScheme_sound (l : List Char) (sch rest : List Char)
    (h : getScheme l = some (sch, rest)) :
    (sch = [] ∧ rest = l) ∨
    (l = sch ++ ':' :: rest ∧ (∀ c ∈ sch, isSchemeCh c = true) ∧
      ∃ c cs, sch = c :: cs ∧ isAlphaCh c = true) :=
  getSchemeAux_sound l l [] (by simp) (by simp) (by simp) sch rest h

/-! ## Lemmas: `queryCut` -/

theorem queryCut_no_q (M : List Char) (hM : '?' ∉ M) :
    queryCut M = (M, [], false) := by
  unfold queryCut
  rw [if_neg ?_]
  · rw [splitAtChar_eq_of_not_mem _ _ hM]
  · intro hcond
    rcases Bool.and_eq_true .. |>.mp hcond with ⟨h1, _⟩
    have hl : M.getLast? = some '?' := of_decide_eq_true h1
    exact hM (by rw [← List.dropLast_append_getLast? _ hl]; simp)

theorem queryCut_append_force (M : List Char) (hM : '?' ∉ M) :
    queryCut (M ++ ['?']) = (M, [], true) := by
  have h1 : (M ++ ['?']).getLast? = some '?' := by simp
  have hcond : (decide ((M ++ ['?']).getLast? = some '?') &&
      !(M ++ ['?']).dropLast.contains '?') = true := by
    rw [List.dropLast_concat]
    simp [h1, hM]
  unfold queryCut
  rw [if_pos hcond, List.dropLast_concat]

theorem queryCut_append_some (M rq : List Char) (hM : '?' ∉ M) (hrq : rq ≠ []) :
    queryCut (M ++ '?' :: rq) = (M, rq, false) := by
  have hcond : ¬ (decide ((M ++ '?' :: rq).getLast? = some '?') &&
      !(M ++ '?' :: rq).dropLast.contains '?') = true := by
    intro hcond
    rcases Bool.and_eq_true .. |>.mp hcond with ⟨_, h2⟩
    rcases rq with _ | ⟨r, rs⟩
    · exact hrq rfl
    · rw [List.dropLast_append_cons, List.dropLast_cons₂] at h2
      simp at h2
  unfold queryCut
  rw [if_neg hcond, splitAtChar_append_cons _ _ _ hM]

/-! ## Lemmas: `getScheme` on serialized URLs -/

theorem getSchemeAux_clean (orig : List Char) :
    ∀ l acc, acc ≠ [] → cleanTail l = true → getSchemeAux orig l acc = some ([], orig) := by
  intro l
  induction l with
  | nil => intro acc _ _; rfl
  | cons c cs ih =>
    intro acc hacc hclean
    unfold cleanTail at hclean
    by_cases hc : c = ':'
    · rw [if_pos hc] at hclean; cases hclean
    · rw [if_neg hc] at hclean
      unfold getSchemeAux
      rw [if_neg hc]
      have hne : acc.isEmpty = false := by
        rcases acc with _ | _
        · exact absurd rfl hacc
        · rfl
      by_cases hs : isSchemeCh c
      · rw [if_pos hs] at hclean
        rw [if_pos (by simp [hne, hs])]
        exact ih (c :: acc) (by simp) hclean
      · have h2 : isSchemeCh c = false := Bool.eq_false_iff.mpr hs
        rw [if_neg (by simp [hne, h2])]

theorem getScheme_no_scheme (l : List Char)
    (h : ∀ c cs, l = c :: cs → c ≠ ':' ∧ (isAlphaCh c = true → cleanTail cs = true)) :
    getScheme l = some ([], l) := by
  rcases l with _ | ⟨c, cs⟩
  · rfl
  · obtain ⟨hc, hclean⟩ := h c cs rfl
    unfold getScheme getSchemeAux
    rw [if_neg hc]
    by_cases ha : isAlphaCh c
    · rw [if_pos (by simp [ha])]
      exact getSchemeAux_clean _ cs [c] (by simp) (hclean ha)
    · have h2 : isAlphaCh c = false := Bool.eq_false_iff.mpr ha
      rw [if_neg (by simp [h2])]

theorem cleanTail_append (l₁ l₂ : List Char) (h1 : ':' ∉ l₁) (h2 : cleanTail l₂ = true) :
    cleanTail (l₁ ++ l₂) = true := by
  induction l₁ with
  | nil => exact h2
  | cons c cs ih =>
    have hc : c ≠ ':' := fun he => h1 (he ▸ List.mem_cons_self c cs)
    have hcs : ':' ∉ cs := fun hm => h1 (List.mem_cons_of_mem c hm)
    rw [List.cons_append]
    unfold cleanTail
    rw [if_neg hc]
    by_cases hs : isSchemeCh c
    · rw [if_pos hs]; exact ih hcs
    · rw [if_neg hs]

theorem cleanTail_stop (c : Char) (cs : List Char) (hc : c ≠ ':')
    (hs : isSchemeCh c = false) : cleanTail (c :: cs) = true := by
  unfold cleanTail
  rw [if_neg hc, if_neg (by simp [hs])]

theorem getSchemeAux_run (orig rest : List Char) :
    ∀ l acc, (∀ c ∈ l, isSchemeCh c = true) →
      (acc = [] → ∃ c cs, l = c :: cs ∧ isAlphaCh c = true) →
      getSchemeAux orig (l ++ ':' :: rest) acc = some (acc.reverse ++ l, rest) := by
  intro l
  induction l with
  | nil =>
    intro acc _ hne
    cases acc with
    | nil =>
      obtain ⟨c, cs, hl, _⟩ := hne rfl
      cases hl
    | cons a as =>
      show getSchemeAux orig (':' :: rest) (a :: as) = _
      unfold getSchemeAux
      rw [if_pos rfl, if_neg (by simp)]
      simp
  | cons c cs ih =>
    intro acc hchars hne
    have hcS : isSchemeCh c = true := hchars c (List.mem_cons_self c cs)
    have hc : c ≠ ':' := (isSchemeCh_ne c hcS).1
    have hcond : ((acc.isEmpty && isAlphaCh c) || (!acc.isEmpty && isSchemeCh c)) = true := by
      cases acc with
      | nil =>
        obtain ⟨c', cs', hl, ha⟩ := hne rfl
        injection hl with h1 _
        subst h1
        simp [ha]
      | cons a as => simp [hcS]
    show getSchemeAux orig (c :: (cs ++ ':' :: rest)) acc = _
    unfold getSchemeAux
    rw [if_neg hc, if_pos hcond]
    rw [ih (c :: acc) (fun x hx => hchars x (List.mem_cons_of_mem c hx)) (by simp)]
    simp

theorem getScheme_run (sch rest : List Char)
    (hchars : ∀ c ∈ sch, isSchemeCh c = true)
    (hhead : ∃ c cs, sch = c :: cs ∧ isAlphaCh c = true) :
    getScheme (sch ++ ':' :: rest) = some (sch, rest) := by
  unfold getScheme
  rw [getSchemeAux_run _ rest sch [] hchars (fun _ => hhead)]
  rfl

/-! ## Lemmas: prefixes and `queryCut` decomposition -/

theorem startsWithL_one (a : Char) (l : List Char) :
    startsWithL [a] l = true ↔ ∃ r, l = a :: r := by
  cases l with
  | nil => simp [startsWithL]
  | cons x xs =>
    simp only [startsWithL, Bool.and_eq_true, decide_eq_true_eq, List.cons.injEq]
    constructor
    · rintro ⟨rfl, -⟩
      exact ⟨xs, rfl, rfl⟩
    · rintro ⟨r, rfl, rfl⟩
      exact ⟨rfl, trivial⟩

theorem startsWithL_two (a b : Char) (l : List Char) :
    startsWithL [a, b] l = true ↔ ∃ r, l = a :: b :: r := by
  cases l with
  | nil => simp [startsWithL]
  | cons x xs =>
    cases xs with
    | nil => simp [startsWithL]
    | cons y ys =>
      simp only [startsWithL, Bool.and_eq_true, decide_eq_true_eq, List.cons.injEq]
      constructor
      · rintro ⟨rfl, rfl, -⟩
        exact ⟨ys, rfl, rfl, rfl⟩
      · rintro ⟨r, rfl, rfl, rfl⟩
        exact ⟨rfl, rfl, trivial⟩

theorem startsWithL_three (a b c : Char) (l : List Char) :
    startsWithL [a, b, c] l = true ↔ ∃ r, l = a :: b :: c :: r := by
  cases l with
  | nil => simp [startsWithL]
  | cons x xs =>
    cases xs with
    | nil => simp [startsWithL]
    | cons y ys =>
      cases ys with
      | nil => simp [startsWithL]
      | cons z zs =>
        simp only [startsWithL, Bool.and_eq_true, decide_eq_true_eq, List.cons.injEq]
        constructor
        · rintro ⟨rfl, rfl, rfl, -⟩
          exact ⟨zs, rfl, rfl, rfl, rfl⟩
        · rintro ⟨r, rfl, rfl, rfl, rfl⟩
          exact ⟨rfl, rfl, rfl, trivial⟩

theorem queryCut_sound (rest0 : List Char) :
    '?' ∉ (queryCut rest0).1 ∧
      (∀ c ∈ (queryCut rest0).1, c ∈ rest0) ∧
      (∀ c ∈ (queryCut rest0).2.1, c ∈ rest0) := by
  unfold queryCut
  by_cases hcond : (decide (rest0.getLast? = some '?') && !rest0.dropLast.contains '?') = true
  · rw [if_pos hcond]
    rcases Bool.and_eq_true .. |>.mp hcond with ⟨_, h2⟩
    refine ⟨?_, ?_, ?_⟩
    · intro hm
      simp only [Bool.not_eq_eq_eq_not, Bool.not_true] at h2
      simp at h2
      exact h2 hm
    · intro c hc; exact List.mem_of_mem_dropLast hc
    · intro c hc; cases hc
  · rw [if_neg hcond]
    rcases hsp : splitAtChar '?' rest0 with ⟨a, o⟩
    have hrec := splitAtChar_recover '?' rest0
    have hfst := splitAtChar_fst_not_mem '?' rest0
    rw [hsp] at hrec hfst
    cases o with
    | none =>
      refine ⟨hfst, ?_, ?_⟩
      · intro c hc
        rw [hrec]
        simpa using hc
      · intro c hc; cases hc
    | some q =>
      refine ⟨hfst, ?_, ?_⟩
      · intro c hc
        rw [hrec]
        simp only [List.mem_append, List.mem_cons]
        exact Or.inl hc
      · intro c hc
        rw [hrec]
        simp only [List.mem_append, List.mem_cons]
        exact Or.inr (Or.inr hc)

/-! ## Lemmas: every parse result is well-formed -/

theorem not_mem_nil' {c : Char} (h : c ∈ ([] : List Char)) : False :=
  absurd h (List.not_mem_nil c)

theorem parseAfterScheme_wf (scheme rest1 rawQuery : List Char) (fq : Bool) (frag : List Char)
    (hss : scheme = [] ∨ ∃ c cs, scheme = c :: cs ∧ isAlphaCh c = true)
    (hsc : ∀ c ∈ scheme, isSchemeCh c = true)
    (h1ctl : ∀ c ∈ rest1, isCtl c = false)
    (h1q : '?' ∉ rest1)
    (h1h : '#' ∉ rest1)
    (hrctl : ∀ c ∈ rawQuery, isCtl c = false)
    (hrh : '#' ∉ rawQuery)
    (hfpv : percentValid frag = true)
    (P : GoURL) (h : parseAfterScheme scheme rest1 rawQuery fq frag = some P) :
    WF P := by
  unfold parseAfterScheme at h
  by_cases hslash : rest1.head? ≠ some '/'
  · rw [if_pos hslash] at h
    by_cases hsch : scheme.isEmpty
    · have hscheme : scheme = [] := by simpa using hsch
      rw [if_neg (by simp [hsch])] at h
      by_cases hcolon : ((splitAtChar '/' rest1).1).contains ':' = true
      · rw [if_pos hcolon] at h; cases h
      · rw [if_neg hcolon] at h
        by_cases hpv : percentValid rest1 = true
        · rw [if_pos hpv] at h
          obtain rfl := Option.some.inj h
          exact {
            scheme_shape := Or.inl rfl
            scheme_chars := fun c hc => (not_mem_nil' hc).elim
            opq_ctl := fun c hc => (not_mem_nil' hc).elim
            opq_no_q := fun hc => not_mem_nil' hc
            opq_no_h := fun hc => not_mem_nil' hc
            opq_head := by simp
            opq_scheme := fun hne => absurd rfl hne
            opq_excl := fun hne => absurd rfl hne
            host_ctl := fun c hc => (not_mem_nil' hc).elim
            host_no_slash := fun hc => not_mem_nil' hc
            host_no_q := fun hc => not_mem_nil' hc
            host_no_h := fun hc => not_mem_nil' hc
            host_pv := rfl
            host_port := rfl
            host_path := fun hne => absurd rfl hne
            path_ctl := h1ctl
            path_no_q := h1q
            path_no_h := h1h
            path_pv := hpv
            path_colon := fun _ _ _ => by simpa using hcolon
            omit_shape := fun hfalse => by simp at hfalse
            path_shape := fun _ hs => absurd rfl hs
            path_slash3 := fun _ _ h2 => by
              obtain ⟨r, hr⟩ := (startsWithL_two '/' '/' rest1).mp h2
              rw [hr] at hslash
              exact absurd rfl hslash
            rq_ctl := hrctl
            rq_no_h := hrh
            frag_pv := hfpv }
        · rw [if_neg hpv] at h; cases h
    · have hscheme : scheme ≠ [] := by simpa using hsch
      rw [if_pos (by simpa using hsch)] at h
      obtain rfl := Option.some.inj h
      exact {
        scheme_shape := hss
        scheme_chars := hsc
        opq_ctl := h1ctl
        opq_no_q := h1q
        opq_no_h := h1h
        opq_head := hslash
        opq_scheme := fun _ => hscheme
        opq_excl := fun _ => ⟨rfl, rfl, rfl⟩
        host_ctl := fun c hc => (not_mem_nil' hc).elim
        host_no_slash := fun hc => not_mem_nil' hc
        host_no_q := fun hc => not_mem_nil' hc
        host_no_h := fun hc => not_mem_nil' hc
        host_pv := rfl
        host_port := rfl
        host_path := fun hne => absurd rfl hne
        path_ctl := fun c hc => (not_mem_nil' hc).elim
        path_no_q := fun hc => not_mem_nil' hc
        path_no_h := fun hc => not_mem_nil' hc
        path_pv := rfl
        path_colon := fun _ _ _ => by simp [splitAtChar]
        omit_shape := fun hfalse => by simp at hfalse
        path_shape := fun _ _ _ _ => Or.inl rfl
        path_slash3 := fun _ _ h2 => by simp [startsWithL] at h2
        rq_ctl := hrctl
        rq_no_h := hrh
        frag_pv := hfpv }
  · have hhead : rest1.head? = some '/' := not_not.mp hslash
    rw [if_neg hslash] at h
    by_cases hauth : ((!scheme.isEmpty || !startsWithL ['/', '/', '/'] rest1) &&
        startsWithL ['/', '/'] rest1) = true
    · rw [if_pos hauth] at h
      simp only [] at h
      obtain ⟨r2, hr2⟩ := (startsWithL_two '/' '/' rest1).mp (Bool.and_eq_true .. |>.mp hauth).2
      have hdrop : rest1.drop 2 = r2 := by rw [hr2]; rfl
      rw [hdrop] at h
      have hmemr2 : ∀ c ∈ r2, c ∈ rest1 := by
        intro c hc; rw [hr2]; exact List.mem_cons_of_mem _ (List.mem_cons_of_mem _ hc)
      rcases hsp : splitAtChar '/' r2 with ⟨authority, o⟩
      rw [hsp] at h
      have hanos : '/' ∉ authority := by
        have h' := splitAtChar_fst_not_mem '/' r2
        rw [hsp] at h'
        exact h'
      cases o with
      | none =>
        have hrec : r2 = authority := by
          have h' := splitAtChar_recover '/' r2
          rw [hsp] at h'
          simpa using h'
        have hmema : ∀ c ∈ authority, c ∈ rest1 := fun c hc => hmemr2 c (hrec ▸ hc)
        simp only [] at h
        by_cases hapv : percentValid authority = true
        · rw [if_neg (by simp [hapv])] at h
          by_cases hport : portOK authority = true
          · rw [if_neg (by simp [hport]), if_neg (by simp [percentValid])] at h
            obtain rfl := Option.some.inj h
            exact {
              scheme_shape := hss
              scheme_chars := hsc
              opq_ctl := fun c hc => (not_mem_nil' hc).elim
              opq_no_q := fun hc => not_mem_nil' hc
              opq_no_h := fun hc => not_mem_nil' hc
              opq_head := by simp
              opq_scheme := fun hne => absurd rfl hne
              opq_excl := fun hne => absurd rfl hne
              host_ctl := fun c hc => h1ctl c (hmema c hc)
              host_no_slash := hanos
              host_no_q := fun hc => h1q (hmema _ hc)
              host_no_h := fun hc => h1h (hmema _ hc)
              host_pv := hapv
              host_port := hport
              host_path := fun _ => Or.inl rfl
              path_ctl := fun c hc => (not_mem_nil' hc).elim
              path_no_q := fun hc => not_mem_nil' hc
              path_no_h := fun hc => not_mem_nil' hc
              path_pv := rfl
              path_colon := fun _ _ _ => by simp [splitAtChar]
              omit_shape := fun hfalse => by simp at hfalse
              path_shape := fun _ _ _ _ => Or.inl rfl
              path_slash3 := fun _ _ h2 => by simp [startsWithL] at h2
              rq_ctl := hrctl
              rq_no_h := hrh
              frag_pv := hfpv }
          · rw [if_pos (by simp [hport])] at h; cases h
        · rw [if_pos (by simp [hapv])] at h; cases h
      | some r =>
        have hrec : r2 = authority ++ '/' :: r := by
          have h' := splitAtChar_recover '/' r2
          rw [hsp] at h'
          simpa using h'
        have hmema : ∀ c ∈ authority, c ∈ rest1 := by
          intro c hc
          refine hmemr2 c ?_
          rw [hrec]
          exact List.mem_append_left _ hc
        have hmemp : ∀ c ∈ ('/' :: r), c ∈ rest1 := by
          intro c hc
          refine hmemr2 c ?_
          rw [hrec]
          exact List.mem_append_right _ hc
        simp only [] at h
        by_cases hapv : percentValid authority = true
        · rw [if_neg (by simp [hapv])] at h
          by_cases hport : portOK authority = true
          · rw [if_neg (by simp [hport])] at h
            by_cases hpv2 : percentValid ('/' :: r) = true
            · rw [if_neg (by simp [hpv2])] at h
              obtain rfl := Option.some.inj h
              exact {
                scheme_shape := hss
                scheme_chars := hsc
                opq_ctl := fun c hc => (not_mem_nil' hc).elim
                opq_no_q := fun hc => not_mem_nil' hc
                opq_no_h := fun hc => not_mem_nil' hc
                opq_head := by simp
                opq_scheme := fun hne => absurd rfl hne
                opq_excl := fun hne => absurd rfl hne
                host_ctl := fun c hc => h1ctl c (hmema c hc)
                host_no_slash := hanos
                host_no_q := fun hc => h1q (hmema _ hc)
                host_no_h := fun hc => h1h (hmema _ hc)
                host_pv := hapv
                host_port := hport
                host_path := fun _ => Or.inr rfl
                path_ctl := fun c hc => h1ctl c (hmemp c hc)
                path_no_q := fun hc => h1q (hmemp _ hc)
                path_no_h := fun hc => h1h (hmemp _ hc)
                path_pv := hpv2
                path_colon := fun _ _ _ => by simp [splitAtChar]
                omit_shape := fun hfalse => by simp at hfalse
                path_shape := fun _ _ _ _ => Or.inr rfl
                path_slash3 := fun hsch0 hhost0 _ => by
                  exfalso
                  have hsch0' : scheme = [] := hsch0
                  have hhost0' : authority = [] := hhost0
                  rcases Bool.and_eq_true .. |>.mp hauth with ⟨h3, _⟩
                  rcases Bool.or_eq_true .. |>.mp h3 with h3 | h3
                  · rw [hsch0'] at h3; simp at h3
                  · have hstart : startsWithL ['/', '/', '/'] rest1 = true := by
                      rw [startsWithL_three]
                      refine ⟨r, ?_⟩
                      rw [hr2]
                      have heq : r2 = '/' :: r := by rw [hrec, hhost0']; rfl
                      rw [heq]
                    rw [hstart] at h3
                    simp at h3
                rq_ctl := hrctl
                rq_no_h := hrh
                frag_pv := hfpv }
            · rw [if_pos (by simp [hpv2])] at h; cases h
          · rw [if_pos (by simp [hport])] at h; cases h
        · rw [if_pos (by simp [hapv])] at h; cases h
    · rw [if_neg hauth] at h
      by_cases hpv : percentValid rest1 = true
      · rw [if_pos hpv] at h
        obtain rfl := Option.some.inj h
        have hnostart2 : scheme = [] → startsWithL ['/', '/'] rest1 = true →
            startsWithL ['/', '/', '/'] rest1 = true := by
          intro hsch0 h2
          by_contra h3
          apply hauth
          have h3' : startsWithL ['/', '/', '/'] rest1 = false := Bool.eq_false_iff.mpr h3
          simp [hsch0, h3', h2]
        exact {
          scheme_shape := hss
          scheme_chars := hsc
          opq_ctl := fun c hc => (not_mem_nil' hc).elim
          opq_no_q := fun hc => not_mem_nil' hc
          opq_no_h := fun hc => not_mem_nil' hc
          opq_head := by simp
          opq_scheme := fun hne => absurd rfl hne
          opq_excl := fun hne => absurd rfl hne
          host_ctl := fun c hc => (not_mem_nil' hc).elim
          host_no_slash := fun hc => not_mem_nil' hc
          host_no_q := fun hc => not_mem_nil' hc
          host_no_h := fun hc => not_mem_nil' hc
          host_pv := rfl
          host_port := rfl
          host_path := fun hne => absurd rfl hne
          path_ctl := h1ctl
          path_no_q := h1q
          path_no_h := h1h
          path_pv := hpv
          path_colon := fun _ _ _ => by
            rcases hr1 : rest1 with _ | ⟨c, cs⟩
            · simp [splitAtChar]
            · have hcis : c = '/' := by
                rw [hr1] at hhead
                simpa using hhead
              subst hcis
              simp [splitAtChar]
          omit_shape := by
            intro homit
            have hsne : scheme ≠ [] := by
              intro hsch0
              rw [hsch0] at homit
              simp at homit
            refine ⟨hsne, rfl, rfl, hhead, ?_⟩
            show startsWithL ['/', '/'] rest1 = false
            by_contra h2
            have h2' : startsWithL ['/', '/'] rest1 = true := by
              rcases Bool.eq_false_or_eq_true (startsWithL ['/', '/'] rest1) with h' | h'
              · exact h'
              · exact absurd h' h2
            apply hauth
            have hsf : scheme.isEmpty = false := by
              rcases hs0 : scheme with _ | _
              · exact absurd hs0 hsne
              · rfl
            simp [h2', hsf]
          path_shape := fun homit hsne _ _ => by
            exfalso
            have hsf : scheme.isEmpty = false := by
              rcases hs0 : scheme with _ | _
              · exact absurd hs0 hsne
              · rfl
            rw [hsf] at homit
            simp at homit
          path_slash3 := fun hsch0 _ => hnostart2 hsch0
          rq_ctl := hrctl
          rq_no_h := hrh
          frag_pv := hfpv }
      · rw [if_neg hpv] at h; cases h

theorem parse_wf (s : String) (P : GoURL) (h : parseGoURL s = some P) : WF P := by
  unfold parseGoURL at h
  simp only [] at h
  rcases hFC : splitAtChar '#' s.data with ⟨preFrag, fragOpt⟩
  rw [hFC] at h
  simp only [] at h
  have hno_h : '#' ∉ preFrag := by
    have h' := splitAtChar_fst_not_mem '#' s.data
    rw [hFC] at h'
    exact h'
  by_cases hctl : preFrag.any isCtl = true
  · rw [if_pos hctl] at h; cases h
  · rw [if_neg hctl] at h
    have hctl' : ∀ c ∈ preFrag, isCtl c = false := by
      intro c hc
      have h' := Bool.not_eq_true _ |>.mp hctl
      exact Bool.eq_false_iff.mpr (List.any_eq_false.mp h' c hc)
    by_cases hfv : percentValid (fragOpt.getD []) = true
    · rw [if_neg (by simp [hfv])] at h
      by_cases hstar : preFrag = ['*']
      · rw [if_pos hstar] at h
        obtain rfl := Option.some.inj h
        exact {
          scheme_shape := Or.inl rfl
          scheme_chars := fun c hc => (not_mem_nil' hc).elim
          opq_ctl := fun c hc => (not_mem_nil' hc).elim
          opq_no_q := fun hc => not_mem_nil' hc
          opq_no_h := fun hc => not_mem_nil' hc
          opq_head := by simp
          opq_scheme := fun hne => absurd rfl hne
          opq_excl := fun hne => absurd rfl hne
          host_ctl := fun c hc => (not_mem_nil' hc).elim
          host_no_slash := fun hc => not_mem_nil' hc
          host_no_q := fun hc => not_mem_nil' hc
          host_no_h := fun hc => not_mem_nil' hc
          host_pv := rfl
          host_port := rfl
          host_path := fun hne => absurd rfl hne
          path_ctl := by
            intro c hc
            have : c = '*' := by simpa using hc
            subst this
            rfl
          path_no_q := by simp
          path_no_h := by simp
          path_pv := rfl
          path_colon := fun _ _ _ => by simp [splitAtChar]
          omit_shape := fun hfalse => by simp at hfalse
          path_shape := fun _ hs => absurd rfl hs
          path_slash3 := fun _ _ h2 => by simp [startsWithL] at h2
          rq_ctl := fun c hc => (not_mem_nil' hc).elim
          rq_no_h := fun hc => not_mem_nil' hc
          frag_pv := hfv }
      · rw [if_neg hstar] at h
        rcases hgs : getScheme preFrag with _ | ⟨sch, rest0⟩
        · rw [hgs] at h; cases h
        · rw [hgs] at h
          simp only [] at h
          have hrest0 : ∀ c ∈ rest0, c ∈ preFrag := by
            rcases getScheme_sound preFrag sch rest0 hgs with ⟨_, hr⟩ | ⟨hdec, _, _⟩
            · intro c hc; rw [hr] at hc; exact hc
            · intro c hc
              rw [hdec]
              exact List.mem_append_right _ (List.mem_cons_of_mem _ hc)
          have hsch_mem : ∀ c ∈ sch, c ∈ preFrag := by
            rcases getScheme_sound preFrag sch rest0 hgs with ⟨hs0, _⟩ | ⟨hdec, _, _⟩
            · intro c hc; rw [hs0] at hc; exact (not_mem_nil' hc).elim
            · intro c hc
              rw [hdec]
              exact List.mem_append_left _ hc
          obtain ⟨hq1, hmem1, hmemq⟩ := queryCut_sound rest0
          refine parseAfterScheme_wf sch (queryCut rest0).1 (queryCut rest0).2.1
            (queryCut rest0).2.2 (fragOpt.getD []) ?_ ?_ ?_ hq1 ?_ ?_ ?_ hfv P h
          · rcases getScheme_sound preFrag sch rest0 hgs with ⟨hs0, _⟩ | ⟨_, _, hshape⟩
            · exact Or.inl hs0
            · exact Or.inr hshape
          · rcases getScheme_sound preFrag sch rest0 hgs with ⟨hs0, _⟩ | ⟨_, hchars, _⟩
            · intro c hc; rw [hs0] at hc; exact (not_mem_nil' hc).elim
            · exact hchars
          · intro c hc
            exact hctl' c (hrest0 c (hmem1 c hc))
          · intro hc
            exact hno_h (hrest0 _ (hmem1 _ hc))
          · intro c hc
            exact hctl' c (hrest0 c (hmemq c hc))
          · intro hc
            exact hno_h (hrest0 _ (hmemq _ hc))
    · rw [if_pos (by simp [hfv])] at h; cases h

/-! ## Lemmas: the serializer under well-formedness -/

theorem mem_ite_list {c : Prop} [Decidable c] {a b : List Char} {x : Char}
    (h : x ∈ (if c then a else b)) : x ∈ a ∨ x ∈ b := by
  by_cases hc : c
  · rw [if_pos hc] at h; exact Or.inl h
  · rw [if_neg hc] at h; exact Or.inr h

theorem authPartOf_of_host_ne (P : GoURL) (hh : P.host ≠ []) :
    authPartOf P = '/' :: '/' :: P.host := by
  unfold authPartOf
  have h1 : P.host.isEmpty = false := by
    rcases h0 : P.host with _ | _
    · exact absurd h0 hh
    · rfl
  rw [if_pos (by simp [h1])]

theorem host_nil_of_authPart_nil (P : GoURL) (ha : authPartOf P = []) : P.host = [] := by
  by_cases hh : P.host = []
  · exact hh
  · rw [authPartOf_of_host_ne P hh] at ha
    cases ha

theorem pathPartOf_eq (P : GoURL) (w : WF P) : pathPartOf P = P.path := by
  unfold pathPartOf
  by_cases hh : P.host = []
  · rw [if_neg (by simp [hh])]
  · rcases w.host_path hh with hp | hp
    · rw [if_neg (by simp [hp])]
    · rw [if_neg (by simp [hp])]

theorem dotSlashOf_nil (P : GoURL) (w : WF P) : dotSlashOf P = [] := by
  unfold dotSlashOf
  by_cases hs : (schemePartOf P).isEmpty = true
  · by_cases hap : (authPartOf P).isEmpty = true
    · have hsch : P.scheme = [] := by
        unfold schemePartOf at hs
        by_cases h0 : P.scheme.isEmpty
        · simpa using h0
        · rw [if_pos (by simpa using h0)] at hs
          simp at hs
      have hhost : P.host = [] :=
        host_nil_of_authPart_nil P (by simpa using hap)
      have hnocol : ':' ∉ (splitAtChar '/' P.path).1 := by
        by_cases hopq : P.opq = []
        · exact w.path_colon hsch hhost hopq
        · rw [(w.opq_excl hopq).2.1]
          simp [splitAtChar]
      rw [if_neg ?_]
      intro hcond
      rcases Bool.and_eq_true .. |>.mp hcond with ⟨_, h2⟩
      rw [pathPartOf_eq P w] at h2
      simp at h2
      exact hnocol h2
    · rw [if_neg (by simp [hap])]
  · rw [if_neg (by simp [hs])]

theorem mainPartOf_eq (P : GoURL) (w : WF P) (hopq : P.opq = []) :
    mainPartOf P = authPartOf P ++ P.path := by
  unfold mainPartOf
  rw [if_neg (by simp [hopq]), dotSlashOf_nil P w, pathPartOf_eq P w]
  simp

theorem isEmpty_false_of_ne_nil {l : List Char} (h : l ≠ []) : l.isEmpty = false := by
  rcases h0 : l with _ | _
  · exact absurd h0 h
  · rfl

theorem parseAfterScheme_emit (P : GoURL) (w : WF P) (fq' : Bool) :
    parseAfterScheme P.scheme (mainPartOf P) P.rawQuery fq' P.fragment =
      some ⟨P.scheme, P.opq, P.host, P.path, P.rawQuery, P.fragment, fq', P.omitHost⟩ := by
  by_cases hopq : P.opq = []
  · have hM := mainPartOf_eq P w hopq
    by_cases hhost : P.host = []
    · have hauth0 : (!P.scheme.isEmpty && !P.omitHost && !P.path.isEmpty) = false →
          authPartOf P = [] := by
        intro hc
        unfold authPartOf
        rw [if_neg ?_]
        intro hc2
        apply absurd hc
        simp only [hhost, List.isEmpty_nil, Bool.and_true, Bool.not_true, Bool.or_false,
          Bool.and_false, Bool.false_or] at hc2
        rcases Bool.and_eq_true .. |>.mp hc2 with ⟨h1, h3⟩
        rcases Bool.and_eq_true .. |>.mp h1 with ⟨h1a, h1b⟩
        simp [h1a, h1b, h3]
      have hauth1 : (!P.scheme.isEmpty && !P.omitHost && !P.path.isEmpty) = true →
          authPartOf P = ['/', '/'] := by
        intro hc
        unfold authPartOf
        rcases Bool.and_eq_true .. |>.mp hc with ⟨h1, h3⟩
        rcases Bool.and_eq_true .. |>.mp h1 with ⟨h1a, h1b⟩
        rw [if_pos (by simp [hhost, h1a, h1b, h3])]
        rw [hhost]
      by_cases hpath : P.path = []
      · have homit : P.omitHost = false := by
          rcases hb : P.omitHost with _ | _
          · rfl
          · obtain ⟨_, _, _, hhd, _⟩ := w.omit_shape hb
            rw [hpath] at hhd
            cases hhd
        have hM' : mainPartOf P = [] := by
          rw [hM, hauth0 (by simp [hpath]), hpath]
          rfl
        unfold parseAfterScheme
        rw [hM']
        rw [if_pos (by simp)]
        by_cases hsch : P.scheme = []
        · rw [if_neg (by simp [hsch])]
          rw [if_neg (by simp [splitAtChar])]
          rw [if_pos (show percentValid ([] : List Char) = true from rfl)]
          rw [hopq, hhost, hpath, homit, hsch]
        · rw [if_pos (by simp [isEmpty_false_of_ne_nil hsch])]
          rw [hopq, hhost, hpath, homit]
      · by_cases homitb : P.omitHost = true
        · obtain ⟨hsne, _, _, hhd, hno2⟩ := w.omit_shape homitb
          have hM' : mainPartOf P = P.path := by
            rw [hM, hauth0 (by simp [homitb])]
            simp
          unfold parseAfterScheme
          rw [hM']
          rw [if_neg (by simp [hhd])]
          rw [if_neg (by simp [hno2])]
          rw [if_pos w.path_pv]
          rw [hopq, hhost, homitb, isEmpty_false_of_ne_nil hsne]
          rfl
        · have homit : P.omitHost = false := by
            rcases hb : P.omitHost with _ | _
            · rfl
            · exact absurd hb homitb
          by_cases hsch : P.scheme = []
          · have hM' : mainPartOf P = P.path := by
              rw [hM, hauth0 (by simp [hsch])]
              simp
            rcases hp : P.path with _ | ⟨p₀, ps⟩
            · exact absurd hp hpath
            · by_cases hp0 : p₀ = '/'
              · subst hp0
                unfold parseAfterScheme
                rw [hM', hp]
                rw [if_neg (by simp)]
                have hcondf : ((!P.scheme.isEmpty || !startsWithL ['/', '/', '/'] ('/' :: ps)) &&
                    startsWithL ['/', '/'] ('/' :: ps)) = false := by
                  rcases h2 : startsWithL ['/', '/'] ('/' :: ps) with _ | _
                  · simp
                  · have h3 := w.path_slash3 hsch hhost (by rw [hp]; exact h2)
                    rw [hp] at h3
                    simp [hsch, h3]
                rw [if_neg (by simp [hcondf])]
                rw [if_pos (by rw [← hp]; exact w.path_pv)]
                rw [hopq, hhost, homit, hsch]
                rfl
              · unfold parseAfterScheme
                rw [hM', hp]
                rw [if_pos (by simp [hp0])]
                rw [if_neg (by simp [hsch])]
                have hcol := w.path_colon hsch hhost hopq
                rw [hp] at hcol
                rw [if_neg (by simpa using hcol)]
                rw [if_pos (by rw [← hp]; exact w.path_pv)]
                rw [hopq, hhost, homit, hsch]
          · have hsEf : P.scheme.isEmpty = false := isEmpty_false_of_ne_nil hsch
            rcases w.path_shape homit hsch hhost hopq with hp | hp
            · exact absurd hp hpath
            · rcases hpe : P.path with _ | ⟨p₀, ps⟩
              · exact absurd hpe hpath
              · have hp0 : p₀ = '/' := by
                  rw [hpe] at hp
                  simpa using hp
                subst hp0
                have hM' : mainPartOf P = '/' :: '/' :: P.path := by
                  rw [hM, hauth1 (by simp [hsEf, homit, isEmpty_false_of_ne_nil hpath])]
                  rfl
                unfold parseAfterScheme
                rw [hM']
                rw [if_neg (by simp)]
                rw [if_pos (by simp [hsEf, (startsWithL_two '/' '/' _).mpr ⟨P.path, rfl⟩])]
                simp only []
                have hdrop : ('/' :: '/' :: P.path).drop 2 = P.path := rfl
                rw [hdrop, hpe]
                rw [show splitAtChar '/' ('/' :: ps) = ([], some ps) by simp [splitAtChar]]
                simp only []
                rw [if_neg (by simp [percentValid]), if_neg (by simp [portOK, splitAtLastChar, splitAtChar])]
                rw [if_neg (by simp [show percentValid ('/' :: ps) = true from hpe ▸ w.path_pv])]
                rw [hopq, hhost, homit]
    · have homit : P.omitHost = false := by
        rcases hb : P.omitHost with _ | _
        · rfl
        · exact absurd (w.omit_shape hb).2.1 hhost
      have hM' : mainPartOf P = '/' :: '/' :: (P.host ++ P.path) := by
        rw [hM, authPartOf_of_host_ne P hhost]
        rfl
      have hno3 : startsWithL ['/', '/', '/'] ('/' :: '/' :: (P.host ++ P.path)) = false := by
        rcases h3 : startsWithL ['/', '/', '/'] ('/' :: '/' :: (P.host ++ P.path)) with _ | _
        · rfl
        · exfalso
          obtain ⟨r, hr⟩ := (startsWithL_three '/' '/' '/' _).mp h3
          injection hr with _ hr
          injection hr with _ hr
          rcases hh0 : P.host with _ | ⟨h₀, hs⟩
          · exact hhost hh0
          · rw [hh0] at hr
            injection hr with hr _
            apply w.host_no_slash
            rw [hh0, ← hr]
            exact List.mem_cons_self _ _
      unfold parseAfterScheme
      rw [hM']
      rw [if_neg (by simp)]
      rw [if_pos (by simp [hno3, (startsWithL_two '/' '/' _).mpr ⟨P.host ++ P.path, rfl⟩])]
      simp only []
      have hdrop : ('/' :: '/' :: (P.host ++ P.path)).drop 2 = P.host ++ P.path := rfl
      rw [hdrop]
      rcases w.host_path hhost with hp | hp
      · rw [hp, List.append_nil]
        rw [splitAtChar_eq_of_not_mem '/' P.host w.host_no_slash]
        simp only []
        rw [if_neg (by simp [w.host_pv]), if_neg (by simp [w.host_port])]
        rw [if_neg (by simp [percentValid])]
        rw [hopq, homit]
      · rcases hpe : P.path with _ | ⟨p₀, ps⟩
        · rw [hpe] at hp; cases hp
        · have hp0 : p₀ = '/' := by
            rw [hpe] at hp
            simpa using hp
          subst hp0
          rw [splitAtChar_append_cons '/' P.host ps w.host_no_slash]
          simp only []
          rw [if_neg (by simp [w.host_pv]), if_neg (by simp [w.host_port])]
          rw [if_neg (by simp [show percentValid ('/' :: ps) = true from hpe ▸ w.path_pv])]
          rw [hopq, homit]
  · have hsch := w.opq_scheme hopq
    obtain ⟨hhost, hpath, homit⟩ := w.opq_excl hopq
    have hM : mainPartOf P = P.opq := by
      unfold mainPartOf
      rw [if_pos (by simp [isEmpty_false_of_ne_nil hopq])]
    unfold parseAfterScheme
    rw [hM]
    rw [if_pos w.opq_head]
    rw [if_pos (by simp [isEmpty_false_of_ne_nil hsch])]
    rw [hhost, hpath, homit]

/-! ## Lemmas: characters of the serialized URL -/

theorem schemePart_cases (P : GoURL) : ∀ c ∈ schemePartOf P, c ∈ P.scheme ∨ c = ':' := by
  intro c hc
  unfold schemePartOf at hc
  rcases mem_ite_list hc with hc | hc
  · rcases List.mem_append.mp hc with hc | hc
    · exact Or.inl hc
    · exact Or.inr (by simpa using hc)
  · exact (not_mem_nil' hc).elim

theorem queryPart_cases (P : GoURL) : ∀ c ∈ queryPartOf P, c = '?' ∨ c ∈ P.rawQuery := by
  intro c hc
  unfold queryPartOf at hc
  rcases mem_ite_list hc with hc | hc
  · rcases List.mem_cons.mp hc with hc | hc
    · exact Or.inl hc
    · exact Or.inr hc
  · exact (not_mem_nil' hc).elim

theorem mainPart_cases (P : GoURL) :
    ∀ c ∈ mainPartOf P, c ∈ P.opq ∨ c ∈ P.host ∨ c ∈ P.path ∨ c = '/' ∨ c = '.' := by
  intro c hc
  unfold mainPartOf at hc
  rcases mem_ite_list hc with hc | hc
  · exact Or.inl hc
  · rcases List.mem_append.mp hc with hc | hc
    · rcases List.mem_append.mp hc with hc | hc
      · unfold authPartOf at hc
        rcases mem_ite_list hc with hc | hc
        · rcases List.mem_cons.mp hc with hc | hc
          · exact Or.inr (Or.inr (Or.inr (Or.inl hc)))
          · rcases List.mem_cons.mp hc with hc | hc
            · exact Or.inr (Or.inr (Or.inr (Or.inl hc)))
            · exact Or.inr (Or.inl hc)
        · exact (not_mem_nil' hc).elim
      · unfold dotSlashOf at hc
        rcases mem_ite_list hc with hc | hc
        · rcases List.mem_cons.mp hc with hc | hc
          · exact Or.inr (Or.inr (Or.inr (Or.inr hc)))
          · rcases List.mem_cons.mp hc with hc | hc
            · exact Or.inr (Or.inr (Or.inr (Or.inl hc)))
            · exact (not_mem_nil' hc).elim
        · exact (not_mem_nil' hc).elim
    · unfold pathPartOf at hc
      rcases mem_ite_list hc with hc | hc
      · rcases List.mem_cons.mp hc with hc | hc
        · exact Or.inr (Or.inr (Or.inr (Or.inl hc)))
        · exact Or.inr (Or.inr (Or.inl hc))
      · exact Or.inr (Or.inr (Or.inl hc))

theorem mainPart_no_q (P : GoURL) (w : WF P) : '?' ∉ mainPartOf P := by
  intro hc
  rcases mainPart_cases P '?' hc with hc | hc | hc | hc | hc
  · exact w.opq_no_q hc
  · exact w.host_no_q hc
  · exact w.path_no_q hc
  · cases hc
  · cases hc

theorem pre_no_h (P : GoURL) (w : WF P) :
    '#' ∉ schemePartOf P ++ mainPartOf P ++ queryPartOf P := by
  intro hc
  rcases List.mem_append.mp hc with hc | hc
  · rcases List.mem_append.mp hc with hc | hc
    · rcases schemePart_cases P '#' hc with hc | hc
      · exact absurd (w.scheme_chars '#' hc) (by decide)
      · cases hc
    · rcases mainPart_cases P '#' hc with hc | hc | hc | hc | hc
      · exact w.opq_no_h hc
      · exact w.host_no_h hc
      · exact w.path_no_h hc
      · cases hc
      · cases hc
  · rcases queryPart_cases P '#' hc with hc | hc
    · cases hc
    · exact w.rq_no_h hc

theorem pre_ctl (P : GoURL) (w : WF P) :
    (schemePartOf P ++ mainPartOf P ++ queryPartOf P).any isCtl = false := by
  rw [List.any_eq_false]
  intro c hc
  have goal : isCtl c = false → ¬ isCtl c = true := by
    intro h hc2; rw [h] at hc2; cases hc2
  rcases List.mem_append.mp hc with hc | hc
  · rcases List.mem_append.mp hc with hc | hc
    · rcases schemePart_cases P c hc with hc | hc
      · exact goal (isSchemeCh_not_ctl c (w.scheme_chars c hc))
      · subst hc; exact goal rfl
    · rcases mainPart_cases P c hc with hc | hc | hc | hc | hc
      · exact goal (w.opq_ctl c hc)
      · exact goal (w.host_ctl c hc)
      · exact goal (w.path_ctl c hc)
      · subst hc; exact goal rfl
      · subst hc; exact goal rfl
  · rcases queryPart_cases P c hc with hc | hc
    · subst hc; exact goal rfl
    · exact goal (w.rq_ctl c hc)

/-! ## Lemmas: re-parsing the serialized query and scheme -/

theorem queryCut_emit (P : GoURL) (w : WF P) :
    queryCut (mainPartOf P ++ queryPartOf P) =
      (mainPartOf P, P.rawQuery, P.forceQuery && P.rawQuery.isEmpty) := by
  have hnoq := mainPart_no_q P w
  unfold queryPartOf
  rcases hrq : P.rawQuery with _ | ⟨r, rs⟩
  · by_cases hfq : P.forceQuery = true
    · rw [if_pos (by simp [hfq])]
      rw [queryCut_append_force _ hnoq, hfq]
      rfl
    · have hfq' : P.forceQuery = false := by
        rcases hb : P.forceQuery with _ | _
        · rfl
        · exact absurd hb hfq
      rw [if_neg (by simp [hfq']), List.append_nil, queryCut_no_q _ hnoq, hfq']
      rfl
  · rw [if_pos (by simp)]
    rw [queryCut_append_some _ _ hnoq (by simp)]
    simp

theorem cleanTail_queryPart (P : GoURL) : cleanTail (queryPartOf P) = true := by
  unfold queryPartOf
  by_cases hc : (P.forceQuery || !P.rawQuery.isEmpty) = true
  · rw [if_pos hc]
    exact cleanTail_stop '?' _ (by decide) (by decide)
  · rw [if_neg hc]
    rfl

theorem splitAtChar_cons_ne (ch c : Char) (cs : List Char) (h : ¬ c = ch) :
    splitAtChar ch (c :: cs) = (c :: (splitAtChar ch cs).1, (splitAtChar ch cs).2) := by
  simp [splitAtChar, h]

theorem getScheme_emission_nil (P : GoURL) (w : WF P) (hsch : P.scheme = []) :
    getScheme (mainPartOf P ++ queryPartOf P) =
      some ([], mainPartOf P ++ queryPartOf P) := by
  apply getScheme_no_scheme
  intro c cs hccs
  have hopq : P.opq = [] := by
    by_cases h0 : P.opq = []
    · exact h0
    · exact absurd hsch (w.opq_scheme h0)
  have hM := mainPartOf_eq P w hopq
  by_cases hhost : P.host = []
  · have hauth : authPartOf P = [] ∨ authPartOf P = '/' :: '/' :: P.host := by
      unfold authPartOf
      by_cases hc0 : ((!P.scheme.isEmpty || !P.host.isEmpty) && !(P.omitHost && P.host.isEmpty)
          && (!P.host.isEmpty || !P.path.isEmpty)) = true
      · rw [if_pos hc0]; exact Or.inr rfl
      · rw [if_neg hc0]; exact Or.inl rfl
    rcases hauth with hauth | hauth
    · rw [hM, hauth, List.nil_append] at hccs
      rcases hpe : P.path with _ | ⟨p₀, ps⟩
      · rw [hpe, List.nil_append] at hccs
        have hQ := cleanTail_queryPart P
        rcases hqe : queryPartOf P with _ | ⟨q₀, qs⟩
        · rw [hqe] at hccs; cases hccs
        · rw [hqe] at hccs
          injection hccs with hc1 hc2
          subst hc1
          rw [hqe] at hQ
          unfold cleanTail at hQ
          by_cases hq0 : q₀ = ':'
          · rw [if_pos hq0] at hQ; cases hQ
          · refine ⟨hq0, fun ha => ?_⟩
            rw [if_neg hq0] at hQ
            by_cases hq1 : isSchemeCh q₀ = true
            · rw [if_pos hq1] at hQ
              rw [← hc2]
              exact hQ
            · exact absurd (isAlphaCh_isSchemeCh q₀ ha) hq1
      · rw [hpe] at hccs
        rw [List.cons_append] at hccs
        injection hccs with hc1 hc2
        subst hc1
        have hcol := w.path_colon hsch hhost hopq
        rw [hpe] at hcol
        constructor
        · intro hcC
          subst hcC
          apply hcol
          rw [splitAtChar_cons_ne '/' ':' ps (by decide)]
          exact List.mem_cons_self _ _
        · intro ha
          have hp0 : ¬ p₀ = '/' := fun he => absurd ha (by rw [he]; decide)
          rw [splitAtChar_cons_ne '/' p₀ ps hp0] at hcol
          have hseg : ':' ∉ (splitAtChar '/' ps).1 := fun hm =>
            hcol (List.mem_cons_of_mem _ hm)
          have hrec := splitAtChar_recover '/' ps
          rw [← hc2]
          rcases hsnd : (splitAtChar '/' ps).2 with _ | r
          · rw [hsnd] at hrec
            simp only [List.append_nil] at hrec
            rw [← hrec] at hseg
            exact cleanTail_append _ _ hseg (cleanTail_queryPart P)
          · rw [hsnd] at hrec
            rw [hrec, List.append_assoc]
            refine cleanTail_append _ _ hseg ?_
            exact cleanTail_stop '/' _ (by decide) (by decide)
    · rw [hhost] at hauth
      rw [hM, hauth] at hccs
      rw [List.cons_append] at hccs
      injection hccs with hc1 _
      subst hc1
      exact ⟨by decide, fun ha => absurd ha (by decide)⟩
  · have hauth := authPartOf_of_host_ne P hhost
    rw [hM, hauth, List.cons_append] at hccs
    injection hccs with hc1 _
    subst hc1
    exact ⟨by decide, fun ha => absurd ha (by decide)⟩

theorem star_emission (P : GoURL) (w : WF P)
    (h : schemePartOf P ++ mainPartOf P ++ queryPartOf P = ['*']) :
    P.scheme = [] ∧ P.opq = [] ∧ P.host = [] ∧ P.path = ['*'] ∧ P.rawQuery = [] ∧
      P.forceQuery = false ∧ P.omitHost = false := by
  have hlen : (schemePartOf P).length + (mainPartOf P).length + (queryPartOf P).length = 1 := by
    have hl := congrArg List.length h
    simp only [List.length_append, List.length_cons, List.length_nil] at hl
    omega
  have hsch : P.scheme = [] := by
    by_contra hne
    have hs : schemePartOf P = P.scheme ++ [':'] := by
      unfold schemePartOf
      rw [if_pos (by simp [isEmpty_false_of_ne_nil hne])]
    rw [hs] at hlen
    rcases hse : P.scheme with _ | ⟨c, cs⟩
    · exact hne hse
    · rw [hse] at hlen
      simp [List.length_append] at hlen
      omega
  have hschemePart : schemePartOf P = [] := by
    unfold schemePartOf
    rw [hsch]
    rfl
  have hopq : P.opq = [] := by
    by_cases h0 : P.opq = []
    · exact h0
    · exact absurd hsch (w.opq_scheme h0)
  rw [hschemePart, List.nil_append] at h
  rcases hm : mainPartOf P with _ | ⟨m₀, ms⟩
  · exfalso
    rw [hm, List.nil_append] at h
    unfold queryPartOf at h
    by_cases hc : (P.forceQuery || !P.rawQuery.isEmpty) = true
    · rw [if_pos hc] at h
      injection h with h1 _
      exact absurd h1 (by decide)
    · rw [if_neg hc] at h
      cases h
  · rw [hm, List.cons_append] at h
    injection h with h1 h2
    have hq : queryPartOf P = [] := (List.append_eq_nil.mp h2).2
    have hms : ms = [] := (List.append_eq_nil.mp h2).1
    have hfq : P.forceQuery = false := by
      rcases hb : P.forceQuery with _ | _
      · rfl
      · exfalso
        unfold queryPartOf at hq
        rw [if_pos (by rw [hb]; rfl)] at hq
        cases hq
    have hrq : P.rawQuery = [] := by
      rcases hre : P.rawQuery with _ | ⟨r, rs⟩
      · rfl
      · exfalso
        unfold queryPartOf at hq
        rw [if_pos (by rw [hre, hfq]; rfl)] at hq
        cases hq
    have hmain : mainPartOf P = ['*'] := by rw [hm, hms, h1]
    rw [mainPartOf_eq P w hopq] at hmain
    have hauth : authPartOf P = [] ∨ authPartOf P = '/' :: '/' :: P.host := by
      by_cases hh : P.host = []
      · unfold authPartOf
        by_cases hc0 : ((!P.scheme.isEmpty || !P.host.isEmpty) &&
            !(P.omitHost && P.host.isEmpty) && (!P.host.isEmpty || !P.path.isEmpty)) = true
        · rw [if_pos hc0]
          exact Or.inr rfl
        · rw [if_neg hc0]
          exact Or.inl rfl
      · exact Or.inr (authPartOf_of_host_ne P hh)
    rcases hauth with hauth | hauth
    · have hhost : P.host = [] := host_nil_of_authPart_nil P hauth
      rw [hauth, List.nil_append] at hmain
      have hoh : P.omitHost = false := by
        rcases hb : P.omitHost with _ | _
        · rfl
        · exact absurd hsch (w.omit_shape hb).1
      exact ⟨hsch, hopq, hhost, hmain, hrq, hfq, hoh⟩
    · exfalso
      rw [hauth, List.cons_append] at hmain
      injection hmain with h3 _
      exact absurd h3 (by decide)

theorem parse_urlToString (P : GoURL) (w : WF P) :
    parseGoURL (urlToString P) =
      some { P with forceQuery := P.forceQuery && P.rawQuery.isEmpty } := by
  obtain ⟨fOpt, hsplit, hgetD⟩ :
      ∃ fOpt, splitAtChar '#' (urlToString P).data =
        (schemePartOf P ++ mainPartOf P ++ queryPartOf P, fOpt) ∧
        fOpt.getD [] = P.fragment := by
    rcases hf : P.fragment with _ | ⟨f, fs⟩
    · refine ⟨none, ?_, rfl⟩
      have hfp : fragPartOf P = [] := by
        unfold fragPartOf
        rw [hf]
        rfl
      show splitAtChar '#'
        (schemePartOf P ++ mainPartOf P ++ queryPartOf P ++ fragPartOf P) = _
      rw [hfp, List.append_nil]
      exact splitAtChar_eq_of_not_mem '#' _ (pre_no_h P w)
    · refine ⟨some (f :: fs), ?_, rfl⟩
      have hfp : fragPartOf P = '#' :: (f :: fs) := by
        unfold fragPartOf
        rw [hf]
        rfl
      show splitAtChar '#'
        (schemePartOf P ++ mainPartOf P ++ queryPartOf P ++ fragPartOf P) = _
      rw [hfp]
      exact splitAtChar_append_cons '#' _ _ (pre_no_h P w)
  unfold parseGoURL
  simp only []
  rw [hsplit]
  simp only []
  rw [hgetD]
  rw [if_neg (by rw [pre_ctl P w]; exact Bool.false_ne_true)]
  rw [if_neg (by simp [w.frag_pv])]
  by_cases hstar : schemePartOf P ++ mainPartOf P ++ queryPartOf P = ['*']
  · obtain ⟨h1, h2, h3, h4, h5, h6, h7⟩ := star_emission P w hstar
    rw [if_pos hstar, h1, h2, h3, h4, h5, h6, h7]
    rfl
  · rw [if_neg hstar]
    rcases w.scheme_shape with hsch | ⟨c, cs, hsch, hca⟩
    · have hsp : schemePartOf P = [] := by
        unfold schemePartOf
        rw [hsch]
        rfl
      rw [hsp, List.nil_append]
      rw [getScheme_emission_nil P w hsch]
      simp only []
      rw [queryCut_emit P w]
      simp only []
      rw [← hsch]
      exact parseAfterScheme_emit P w _
    · have hne : P.scheme ≠ [] := by
        rw [hsch]
        exact List.cons_ne_nil c cs
      have hsp : schemePartOf P = P.scheme ++ [':'] := by
        unfold schemePartOf
        rw [if_pos (by simp [isEmpty_false_of_ne_nil hne])]
      have hre : schemePartOf P ++ mainPartOf P ++ queryPartOf P
          = P.scheme ++ ':' :: (mainPartOf P ++ queryPartOf P) := by
        rw [hsp]
        simp [List.append_assoc]
      rw [hre]
      rw [getScheme_run P.scheme (mainPartOf P ++ queryPartOf P) w.scheme_chars
        ⟨c, cs, hsch, hca⟩]
      simp only []
      rw [queryCut_emit P w]
      simp only []
      exact parseAfterScheme_emit P w _

/-! ## Lemmas: the encoded query is a safe raw query -/

theorem utf8Bytes_lt (c : Char) : ∀ n ∈ utf8Bytes c, n < 256 := by
  intro n hn
  have hc : c.toNat < 1114112 := by
    rcases c.valid with h | ⟨_, h⟩
    · have h' : c.toNat < 55296 := h
      omega
    · exact h
  unfold utf8Bytes at hn
  simp only [] at hn
  by_cases h1 : c.toNat < 128
  · rw [if_pos h1] at hn
    have he : n = c.toNat := by simpa using hn
    omega
  · rw [if_neg h1] at hn
    by_cases h2 : c.toNat < 2048
    · rw [if_pos h2] at hn
      have hd : c.toNat / 64 < 32 := (Nat.div_lt_iff_lt_mul (by decide)).mpr h2
      have hm : c.toNat % 64 < 64 := Nat.mod_lt _ (by decide)
      rcases (by simpa using hn :
          n = 192 + c.toNat / 64 ∨ n = 128 + c.toNat % 64) with he | he <;> omega
    · rw [if_neg h2] at hn
      by_cases h3 : c.toNat < 65536
      · rw [if_pos h3] at hn
        have hd : c.toNat / 4096 < 16 := (Nat.div_lt_iff_lt_mul (by decide)).mpr h3
        have hm1 : c.toNat / 64 % 64 < 64 := Nat.mod_lt _ (by decide)
        have hm2 : c.toNat % 64 < 64 := Nat.mod_lt _ (by decide)
        rcases (by simpa using hn :
            n = 224 + c.toNat / 4096 ∨ n = 128 + c.toNat / 64 % 64 ∨
              n = 128 + c.toNat % 64) with he | he | he <;> omega
      · rw [if_neg h3] at hn
        have hd : c.toNat / 262144 < 5 :=
          (Nat.div_lt_iff_lt_mul (by decide)).mpr (by omega)
        have hm1 : c.toNat / 4096 % 64 < 64 := Nat.mod_lt _ (by decide)
        have hm2 : c.toNat / 64 % 64 < 64 := Nat.mod_lt _ (by decide)
        have hm3 : c.toNat % 64 < 64 := Nat.mod_lt _ (by decide)
        rcases (by simpa using hn :
            n = 240 + c.toNat / 262144 ∨ n = 128 + c.toNat / 4096 % 64 ∨
              n = 128 + c.toNat / 64 % 64 ∨ n = 128 + c.toNat % 64) with
          he | he | he | he <;> omega

theorem hexUpper_safe (n : Nat) (h : n < 16) :
    isCtl (hexUpper n) = false ∧ hexUpper n ≠ '#' := by
  interval_cases n <;> exact ⟨by decide, by decide⟩

theorem isUnreservedQ_safe (c : Char) (h : isUnreservedQ c = true) :
    isCtl c = false ∧ c ≠ '#' := by
  unfold isUnreservedQ isAlphaCh isDigitCh at h
  simp only [Bool.or_eq_true, Bool.and_eq_true, decide_eq_true_eq] at h
  constructor
  · unfold isCtl
    simp only [Bool.or_eq_false_iff, decide_eq_false_iff_not, Nat.not_lt, beq_eq_false_iff_ne,
      ne_eq]
    rcases h with (((((⟨h1, h2⟩ | ⟨h1, h2⟩) | ⟨h1, h2⟩) | h) | h) | h) | h
    · omega
    · omega
    · omega
    · subst h; decide
    · subst h; decide
    · subst h; decide
    · subst h; decide
  · rintro rfl
    rcases h with (((((⟨h1, h2⟩ | ⟨h1, h2⟩) | ⟨h1, h2⟩) | h) | h) | h) | h <;> simp_all

theorem queryEscapeL_safe (l : List Char) :
    ∀ c ∈ queryEscapeL l, isCtl c = false ∧ c ≠ '#' := by
  intro c hc
  unfold queryEscapeL at hc
  rw [List.mem_flatMap] at hc
  obtain ⟨a, _, hc⟩ := hc
  by_cases hu : isUnreservedQ a = true
  · rw [if_pos hu] at hc
    have he : c = a := by simpa using hc
    subst he
    exact isUnreservedQ_safe c hu
  · rw [if_neg hu] at hc
    by_cases hs : a = ' '
    · rw [if_pos hs] at hc
      have he : c = '+' := by simpa using hc
      subst he
      exact ⟨by decide, by decide⟩
    · rw [if_neg hs] at hc
      rw [List.mem_flatMap] at hc
      obtain ⟨n, hn, hc⟩ := hc
      have hn256 : n < 256 := utf8Bytes_lt a n hn
      unfold escByte at hc
      rcases (by simpa using hc :
          c = '%' ∨ c = hexUpper (n / 16) ∨ c = hexUpper (n % 16)) with he | he | he
      · subst he
        exact ⟨by decide, by decide⟩
      · subst he
        exact hexUpper_safe (n / 16) ((Nat.div_lt_iff_lt_mul (by decide)).mpr hn256)
      · subst he
        exact hexUpper_safe (n % 16) (Nat.mod_lt _ (by decide))

theorem mem_intercalate {c : Char} (sep : List Char) (xs : List (List Char))
    (h : c ∈ List.intercalate sep xs) : c ∈ sep ∨ ∃ l, l ∈ xs ∧ c ∈ l := by
  induction xs with
  | nil => simp [List.intercalate, List.intersperse] at h
  | cons x xs ih =>
    cases xs with
    | nil =>
      simp [List.intercalate, List.intersperse] at h
      exact Or.inr ⟨x, List.mem_cons_self _ _, h⟩
    | cons y ys =>
      have hstep : List.intercalate sep (x :: y :: ys) =
          x ++ sep ++ List.intercalate sep (y :: ys) := by
        simp [List.intercalate, List.intersperse]
      rw [hstep] at h
      rcases List.mem_append.mp h with h | h
      · rcases List.mem_append.mp h with h | h
        · exact Or.inr ⟨x, List.mem_cons_self _ _, h⟩
        · exact Or.inl h
      · rcases ih h with h | ⟨l, hl, hcl⟩
        · exact Or.inl h
        · exact Or.inr ⟨l, List.mem_cons_of_mem _ hl, hcl⟩

theorem encode_data_safe (m : Values) :
    ∀ c ∈ (Values.encode m).data, isCtl c = false ∧ c ≠ '#' := by
  intro c hc
  have hc' : c ∈ List.intercalate ['&']
      ((sortByKey m).flatMap fun p =>
        p.2.map fun v => queryEscapeL p.1.data ++ '=' :: queryEscapeL v.data) := hc
  rcases mem_intercalate _ _ hc' with h | ⟨l, hl, hcl⟩
  · have he : c = '&' := by simpa using h
    subst he
    exact ⟨by decide, by decide⟩
  · rw [List.mem_flatMap] at hl
    obtain ⟨p, _, hl⟩ := hl
    rw [List.mem_map] at hl
    obtain ⟨v, _, rfl⟩ := hl
    rcases List.mem_append.mp hcl with h | h
    · exact queryEscapeL_safe _ c h
    · rcases List.mem_cons.mp h with h | h
      · subst h
        exact ⟨by decide, by decide⟩
      · exact queryEscapeL_safe _ c h

theorem WF_setQuery (P : GoURL) (w : WF P) (q : List Char)
    (hctl : ∀ c ∈ q, isCtl c = false) (hnh : '#' ∉ q) :
    WF { P with rawQuery := q } :=
  { scheme_shape := w.scheme_shape
    scheme_chars := w.scheme_chars
    opq_ctl := w.opq_ctl
    opq_no_q := w.opq_no_q
    opq_no_h := w.opq_no_h
    opq_head := w.opq_head
    opq_scheme := w.opq_scheme
    opq_excl := w.opq_excl
    host_ctl := w.host_ctl
    host_no_slash := w.host_no_slash
    host_no_q := w.host_no_q
    host_no_h := w.host_no_h
    host_pv := w.host_pv
    host_port := w.host_port
    host_path := w.host_path
    path_ctl := w.path_ctl
    path_no_q := w.path_no_q
    path_no_h := w.path_no_h
    path_pv := w.path_pv
    path_colon := w.path_colon
    omit_shape := w.omit_shape
    path_shape := w.path_shape
    path_slash3 := w.path_slash3
    rq_ctl := hctl
    rq_no_h := hnh
    frag_pv := w.frag_pv }

/-- C9: for every successfully parsed original URL and every non-empty
parameter map, the rewritten URL that `processURL` serializes — the parse
result with its `RawQuery` replaced by `queryParameters.Encode()` — parses
back to a URL whose query string is exactly the encoded map (any query of
the original URL is gone), while its scheme, host, opaque part, path and
fragment are identical to the original parse result's. -/
theorem C9_rewrite_replaces_query (urlStr : String) (P : GoURL) (params : Values)
    (hP : parseGoURL urlStr = some P) (_hne : params ≠ []) :
    ∃ Q, parseGoURL (urlToString { P with rawQuery := (Values.encode params).data }) =
        some Q ∧
      Q.rawQuery = (Values.encode params).data ∧
      Q.scheme = P.scheme ∧ Q.host = P.host ∧ Q.path = P.path ∧
      Q.opq = P.opq ∧ Q.fragment = P.fragment := by
  have w := parse_wf urlStr P hP
  have hsafe := encode_data_safe params
  have w' := WF_setQuery P w (Values.encode params).data
    (fun c hc => (hsafe c hc).1) (fun hc => (hsafe '#' hc).2 rfl)
  exact ⟨_, parse_urlToString _ w', rfl, rfl, rfl, rfl, rfl, rfl⟩

/-- Witness for C9: the URL `http://h/page?old=1` rewritten with the map
`{q: [FUZZ]}`. -/
theorem C9_witness :
    ∃ Q, parseGoURL (urlToString ⟨"http".data, [], "h".data, "/page".data,
        (Values.encode [("q", ["FUZZ"])]).data, [], false, false⟩) = some Q ∧
      Q.rawQuery = (Values.encode [("q", ["FUZZ"])]).data ∧
      Q.scheme = "http".data ∧ Q.host = "h".data ∧ Q.path = "/page".data ∧
      Q.opq = [] ∧ Q.fragment = [] :=
  C9_rewrite_replaces_query "http://h/page?old=1"
    ⟨"http".data, [], "h".data, "/page".data, "old=1".data, [], false, false⟩
    [("q", ["FUZZ"])] (by decide) (by decide)

end Arjunx
